import Mathlib

/-!
Verification of the MCQ normalization-and-rendering pipeline
(`src/generation.py` of the translation_ai_tool repository).

Strings are modelled as `List Char` (`Str`).  Python's line handling is
modelled with `'\n'` as the (only) line separator: `str.splitlines` /
`"\n".join` become `splitCh '\n'` / `joinCh '\n'`.  (Python's `splitlines`
also recognises `\r` and drops a trailing empty line; none of the claims
below depends on that difference.)  Python's `str.strip` is `pyStrip`
(leading/trailing whitespace removal, with `Char.isWhitespace` standing for
Python's whitespace class), `str.lower` is character-wise `Char.toLower`
(ASCII lowercasing; sufficient for the label sets used by the code), and
the regex character class `\d` is modelled by `Char.isDigit` (ASCII digits).
-/

abbrev Str := List Char

/-- Head-of-list whitespace test: does the string start with a whitespace
character?  (Used to model the regex lookahead `(?!\s)`: the lookahead
fails exactly when the next character exists and is whitespace.) -/
def headWs : Str → Bool
  | [] => false
  | c :: _ => c.isWhitespace

/-- Python `str.lstrip()`. -/
def lstrip (s : Str) : Str := s.dropWhile Char.isWhitespace

/-- Python `str.rstrip()`. -/
def rstrip (s : Str) : Str := (s.reverse.dropWhile Char.isWhitespace).reverse

/-- Python `str.strip()`. -/
def pyStrip (s : Str) : Str := rstrip (lstrip s)

/-- Python `str.lower()`, character-wise ASCII lowercasing. -/
def lowerStr (s : Str) : Str := s.map Char.toLower

/-- `begins pat s` tests whether `pat` is an initial segment of `s`
(Python `str.startswith`). -/
def begins : Str → Str → Bool
  | [], _ => true
  | _ :: _, [] => false
  | p :: ps, c :: cs => p == c && begins ps cs

/-- Split a string at every occurrence of the separator character
(always returns at least one piece). -/
def splitCh (sep : Char) : Str → List Str
  | [] => [[]]
  | c :: cs =>
    if c = sep then [] :: splitCh sep cs
    else
      match splitCh sep cs with
      | [] => [[c]]
      | h :: t => (c :: h) :: t

/-- Join pieces with the separator character (inverse of `splitCh`). -/
def joinCh (sep : Char) : List Str → Str
  | [] => []
  | [l] => l
  | l :: ls => l ++ sep :: joinCh sep ls

/-- Python `s.replace(pat, rep)`: replace all non-overlapping occurrences
of `pat`, scanning left to right.  (All patterns used below are
nonempty.) -/
def pyReplace (pat rep : Str) : Str → Str
  | [] => []
  | c :: cs =>
    if h : begins pat (c :: cs) = true ∧ pat ≠ [] then
      rep ++ pyReplace pat rep ((c :: cs).drop pat.length)
    else
      c :: pyReplace pat rep cs
termination_by s => s.length
decreasing_by
  · simp only [List.length_drop, List.length_cons]
    rcases h with ⟨-, hne⟩
    have : 0 < pat.length := List.length_pos.mpr hne
    omega
  · simp [Nat.lt_succ_self]

/- ====================================================================
   src/generation.py : language helpers
   ==================================================================== -/

/-- The keys of `LANG_DISPLAY` in `src/generation.py`. -/
def LANG_DISPLAY_keys : List Str :=
  ["english".toList, "telugu".toList, "hindi".toList, "odia".toList]

/-- `STRICT_LANGUAGES = {"hindi", "odia"}` from `src/generation.py`. -/
def STRICT_LANGUAGES : List Str := ["hindi".toList, "odia".toList]

/-- `ensure_supported_language` from `src/generation.py`:
normalize by strip + lower; unknown keys fall back to `"english"`. -/
def ensure_supported_language (language : Str) : Str :=
  let normalized := lowerStr (pyStrip language)
  if normalized ∈ LANG_DISPLAY_keys then normalized else "english".toList

/- ====================================================================
   src/generation.py : repair engine
   ==================================================================== -/

/-- Continuation of `ndB` past the leading digit: `re.match(r"^\d+\.", s)`
succeeds iff the maximal leading digit run is nonempty and is followed by
a period. -/
def ndGo : Str → Bool
  | [] => false
  | c :: cs => if c.isDigit then ndGo cs else c == '.'

/-- `re.match(r"^\d+\.", s)` as a Boolean test. -/
def ndB : Str → Bool
  | [] => false
  | c :: cs => c.isDigit && ndGo cs

/-- `re.match(r"^[A-D]\)", s)` as a Boolean test. -/
def optB : Str → Bool
  | a :: b :: _ => (a == 'A' || a == 'B' || a == 'C' || a == 'D') && b == ')'
  | _ => false

/-- The backward scan of `fix_missing_option_markers`: walk the
already-corrected lines from the most recent one, stop at a
question-number line, count option lines.  The argument is the corrected
prefix in reverse order (most recent first). -/
def countBack : List Str → Nat
  | [] => 0
  | p :: ps =>
    let pl := pyStrip p
    if ndB pl then 0
    else if optB pl then countBack ps + 1
    else countBack ps

/-- One line of `fix_missing_option_markers`: a stripped line that starts
with `)` and has length `> 1` gets the next option letter
`chr(65 + count)` prefixed to its stripped form, unless four options are
already present. -/
def fmomStep (accRev : List Str) (l : Str) : Str :=
  match pyStrip l with
  | ')' :: c :: cs =>
    if countBack accRev < 4 then
      Char.ofNat (65 + countBack accRev) :: (')' :: c :: cs)
    else l
  | _ => l

/-- The line loop of `fix_missing_option_markers`; `accRev` is the
corrected prefix in reverse order. -/
def fmomProc (accRev : List Str) : List Str → List Str
  | [] => []
  | l :: ls =>
    let l' := fmomStep accRev l
    l' :: fmomProc (l' :: accRev) ls

/-- `fix_missing_option_markers` from `src/generation.py`. -/
def fix_missing_option_markers (text : Str) : Str :=
  if text = [] then []
  else joinCh '\n' (fmomProc [] (splitCh '\n' text))

/-- The literal set `{"answer:", "answer", "उत्तर:", "ଉତ୍ତର:"}` from
`fix_missing_answers`. -/
def answerBareSet : List Str :=
  ["answer:".toList, "answer".toList, "उत्तर:".toList, "ଉତ୍ତର:".toList]

/-- One line of `fix_missing_answers`. -/
def fmaLine (l : Str) : Str :=
  if lowerStr (pyStrip l) ∈ answerBareSet then "Answer: A".toList else l

/-- `fix_missing_answers` from `src/generation.py`. -/
def fix_missing_answers (text : Str) : Str :=
  if text = [] then []
  else joinCh '\n' ((splitCh '\n' text).map fmaLine)

/-- `re.sub(r"(\d+)\.(?!\s)", r"\1. ", text)`: insert a space after a
digit-run-plus-period that is not already followed by whitespace
(end of input counts as "not whitespace", so a space is appended there). -/
def sub_number_space : Str → Str
  | [] => []
  | c :: cs =>
    if c.isDigit
        && ((cs.dropWhile Char.isDigit).head? == some '.')
        && !headWs (cs.dropWhile Char.isDigit).tail then
      (c :: cs.takeWhile Char.isDigit) ++ '.' :: ' ' ::
        sub_number_space (cs.dropWhile Char.isDigit).tail
    else c :: sub_number_space cs
termination_by s => s.length
decreasing_by
  · refine Nat.lt_succ_of_le (Nat.le_trans ?_
      ((List.dropWhile_sublist Char.isDigit).length_le))
    simp [List.length_tail]
  · simp [Nat.lt_succ_self]

/-- `re.sub(r"([A-D])\)(?!\s)", r"\1) ", text)`: insert a space after an
option letter plus closing parenthesis not already followed by
whitespace. -/
def sub_option_space : Str → Str
  | [] => []
  | c :: cs =>
    if (c == 'A' || c == 'B' || c == 'C' || c == 'D')
        && (cs.head? == some ')') && !headWs cs.tail then
      c :: ')' :: ' ' :: sub_option_space cs.tail
    else c :: sub_option_space cs
termination_by s => s.length
decreasing_by
  · simp [List.length_tail, Nat.lt_succ_of_le]
  · simp [Nat.lt_succ_self]

/-- `correct_output` from `src/generation.py` (the `language` argument is
accepted but, as in the source, not used by the body). -/
def correct_output (text : Str) (language : Str) : Str :=
  if text = [] then []
  else
    sub_option_space (sub_number_space
      (fix_missing_answers (fix_missing_option_markers text)))

/- ====================================================================
   src/generation.py : structural parser
   ==================================================================== -/

/-- One recovered exam item, mirroring the dict built by
`parse_mcq_text`. -/
structure Question where
  number : Str
  content : Str
  options : List Str
  answer : Str
deriving DecidableEq

/-- `re.match(r"^(\d+)\.\s*(.+\?)", s)`: a nonempty leading digit run,
a period, then (after backtracking over `\s*` and the greedy `.+`)
group 2 extends to the LAST `?` of the line.  The regex engine first
lets `\s*` take the maximal whitespace run `k0` after the period and
shrinks it until `.+` can supply at least one character before the
final `?`; so with `p` the index of the last `?`, the match succeeds
iff `p ≥ 1`, and group 2 starts at `min k0 (p - 1)`. -/
def qMatch (s : Str) : Option (Str × Str) :=
  let d := s.takeWhile Char.isDigit
  if d = [] then none
  else
    match s.drop d.length with
    | '.' :: r =>
      match r.reverse.findIdx? (fun c => c == '?') with
      | none => none
      | some j =>
        let p := r.length - 1 - j
        if 1 ≤ p then
          let k := min (r.takeWhile Char.isWhitespace).length (p - 1)
          some (d, (r.drop k).take (p - k + 1))
        else none
    | _ => none

/-- `stripped.lower().startswith("answer")`. -/
def ansStarts (s : Str) : Bool := begins "answer".toList (lowerStr s)

/-- Python `stripped.split(':')` followed by `[-1]`: the text after the
last colon (the whole string when there is no colon). -/
def afterLastColon (s : Str) : Str := (splitCh ':' s).getLastD []

/-- The answer normalization applied by `parse_mcq_text`:
`stripped if stripped.startswith("Answer:") else
 f"Answer: {stripped.split(':')[-1].strip()}"`. -/
def ansNorm (s : Str) : Str :=
  if begins "Answer:".toList s then s
  else "Answer: ".toList ++ pyStrip (afterLastColon s)

/-- The line loop of `parse_mcq_text`: `cur` is the in-progress question
(`current` in the source), `acc` the completed list. -/
def parseGo (cur : Option Question) (acc : List Question) :
    List Str → List Question
  | [] =>
    match cur with
    | some q => acc ++ [q]
    | none => acc
  | l :: ls =>
    let s := pyStrip l
    if s = [] then parseGo cur acc ls
    else
      match qMatch s with
      | some (n, c) =>
        parseGo (some ⟨n, c, [], []⟩)
          (match cur with
           | some q => acc ++ [q]
           | none => acc) ls
      | none =>
        match cur with
        | some q =>
          if optB s then
            parseGo (some { q with options := q.options ++ [s] }) acc ls
          else if ansStarts s then
            parseGo (some { q with answer := ansNorm s }) acc ls
          else parseGo cur acc ls
        | none => parseGo none acc ls

/-- `parse_mcq_text` from `src/generation.py`. -/
def parse_mcq_text (text : Str) : List Question :=
  if text = [] then []
  else parseGo none [] (splitCh '\n' text)

/- ====================================================================
   src/generation.py : document composer escaping
   ==================================================================== -/

/-- `html.escape(value)` with the default `quote=True`: the chained
replacements performed by the Python standard library, ampersand
first. -/
def htmlEscape (s : Str) : Str :=
  pyReplace "'".toList "&#x27;".toList
    (pyReplace "\"".toList "&quot;".toList
      (pyReplace ">".toList "&gt;".toList
        (pyReplace "<".toList "&lt;".toList
          (pyReplace "&".toList "&amp;".toList s))))

/-- `clean_text_html` from `src/generation.py`: escape, then restore
literal `<`, `>`, `&`, then strip. -/
def clean_text_html (value : Str) : Str :=
  if value = [] then []
  else
    pyStrip
      (pyReplace "&amp;".toList "&".toList
        (pyReplace "&gt;".toList ">".toList
          (pyReplace "&lt;".toList "<".toList (htmlEscape value))))

/-- Character-wise description of what `clean_text_html` leaves escaped:
only the two quote characters. -/
def quoteEsc (c : Char) : Str :=
  if c = '"' then "&quot;".toList
  else if c = '\'' then "&#x27;".toList
  else [c]

/-- Concatenation of `quoteEsc` over a string. -/
def quoteEscStr : Str → Str
  | [] => []
  | c :: cs => quoteEsc c ++ quoteEscStr cs

/- ====================================================================
   src/generation.py : PDF rendering (save_pdf)
   ==================================================================== -/

/-- Abstract rendering failure (an exception raised by one of the
external rendering libraries). -/
structure RenderErr where
  msg : Str
deriving DecidableEq

/-- Helper for `re.sub(r"\*\*(.*?)\*\*", r"\1", text)`: given the text
after an opening `**`, find the (lazy, i.e. shortest) bold body before
the next `**`; `.` does not match a newline, so a newline before the
closing marker means no match. -/
def findBold : Str → Option (Str × Str)
  | [] => none
  | c :: cs =>
    if c == '*' && cs.head? == some '*' then some ([], cs.tail)
    else if c == '\n' then none
    else (findBold cs).map (fun ir => (c :: ir.1, ir.2))

theorem findBold_len : ∀ (s inner rest2 : Str),
    findBold s = some (inner, rest2) → inner.length + rest2.length + 2 = s.length := by
  intro s
  induction s with
  | nil => intro inner rest2 h; simp [findBold] at h
  | cons c cs ih =>
    intro inner rest2 h
    by_cases h1 : (c == '*' && cs.head? == some '*') = true
    · simp only [findBold, h1, if_true] at h
      obtain ⟨rfl, rfl⟩ : inner = [] ∧ cs.tail = rest2 := by
        constructor <;> (cases h; rfl)
      simp only [Bool.and_eq_true, beq_iff_eq] at h1
      cases cs with
      | nil => simp at h1
      | cons b bs =>
        simp only [List.tail_cons, List.length_cons, List.length_nil]
        omega
    · by_cases h2 : (c == '\n') = true
      · simp [findBold, h1, h2] at h
      · have h' : (findBold cs).map (fun ir => (c :: ir.1, ir.2)) = some (inner, rest2) := by
          rw [show findBold (c :: cs)
              = if c == '*' && cs.head? == some '*' then some ([], cs.tail)
                else if c == '\n' then none
                else (findBold cs).map (fun ir => (c :: ir.1, ir.2)) from rfl,
            if_neg, if_neg] at h
          · exact h
          · exact h2
          · exact h1
        clear h
        match hfb : findBold cs with
        | none => rw [hfb] at h'; simp at h'
        | some (i, r) =>
          rw [hfb] at h'
          have h'' : some (c :: i, r) = some (inner, rest2) := h'
          cases h''
          have := ih i rest2 hfb
          simp only [List.length_cons]
          omega

/-- `re.sub(r"\*\*(.*?)\*\*", r"\1", text)` from `save_pdf`: at `**`,
replace the (lazy) bold span by its body; with no closing `**` on the
same line, emit one character and continue at the next position. -/
def strip_bold : Str → Str
  | [] => []
  | c :: cs =>
    if c == '*' && cs.head? == some '*' then
      match hfb : findBold cs.tail with
      | some (inner, rest2) => inner ++ strip_bold rest2
      | none => c :: strip_bold cs
    else c :: strip_bold cs
termination_by s => s.length
decreasing_by
  · have h1 := findBold_len _ _ _ hfb
    simp only [List.length_tail] at h1
    simp only [List.length_cons]
    omega
  · simp [Nat.lt_succ_self]
  · simp [Nat.lt_succ_self]

/-- The fallback renderer's drawn content in `save_pdf`: bold markers
stripped, the text split into lines, each line truncated to 150
characters (`line[:150]` in the drawing loop). -/
def fallback_lines (text : Str) : List Str :=
  (splitCh '\n' (strip_bold text)).map (fun l => l.take 150)

/-- `save_pdf` from `src/generation.py`, with the two external rendering
engines abstracted as effect outcomes: `primary` is the result of
`asyncio.run(render_pdf_playwright(...))` and `fallbackRun` is the
ReportLab canvas run applied to the drawn lines (`drawString` of each
truncated line followed by `c.save()`, which writes the output file).
A primary success returns `True` immediately; a primary exception is
caught (`except Exception`) and the fallback code runs; the fallback
code has no exception handler, so a fallback exception propagates. -/
def save_pdf (text : Str) (primary : Except RenderErr Unit)
    (fallbackRun : List Str → Except RenderErr Unit) : Except RenderErr Bool :=
  match primary with
  | Except.ok _ => Except.ok true
  | Except.error _ =>
    match fallbackRun (fallback_lines text) with
    | Except.ok _ => Except.ok true
    | Except.error e => Except.error e

/- ====================================================================
   Generic helper lemmas
   ==================================================================== -/

theorem splitCh_no_sep {sep : Char} : ∀ {l : Str}, sep ∉ l → splitCh sep l = [l] := by
  intro l
  induction l with
  | nil => intro _; rfl
  | cons c cs ih =>
    intro h
    have hc : ¬c = sep := fun hx => h (hx ▸ List.mem_cons_self c cs)
    have hcs : sep ∉ cs := fun hx => h (List.mem_cons_of_mem c hx)
    simp only [splitCh, if_neg hc, ih hcs]

theorem splitCh_ne_nil (sep : Char) : ∀ l : Str, splitCh sep l ≠ [] := by
  intro l
  cases l with
  | nil => simp [splitCh]
  | cons c cs =>
    by_cases hc : c = sep
    · simp [splitCh, hc]
    · simp only [splitCh, if_neg hc]
      match splitCh sep cs with
      | [] => simp
      | h :: t => simp

theorem joinCh_split (sep : Char) : ∀ t : Str, joinCh sep (splitCh sep t) = t := by
  intro t
  induction t with
  | nil => rfl
  | cons c cs ih =>
    by_cases hc : c = sep
    · subst hc
      simp only [splitCh, if_pos rfl]
      match hs : splitCh c cs with
      | [] => exact absurd hs (splitCh_ne_nil c cs)
      | h :: t2 =>
        rw [hs] at ih
        simp only [joinCh]
        rw [ih]
        rfl
    · simp only [splitCh, if_neg hc]
      match hs : splitCh sep cs with
      | [] => exact absurd hs (splitCh_ne_nil sep cs)
      | h :: t2 =>
        rw [hs] at ih
        match t2 with
        | [] => simpa [joinCh] using congrArg (fun x => c :: x) ih
        | x :: xs =>
          simp only [joinCh] at ih ⊢
          rw [List.cons_append, ih]

/- ====================================================================
   C10 : ensure_supported_language
   ==================================================================== -/

/-- C10: for every input string, `ensure_supported_language` returns one
of the four normalized keys `english`, `telugu`, `hindi`, `odia`; any
identifier not recognized after trimming and lowercasing is silently
mapped to `english`. -/
theorem ensure_supported_language_total : ∀ s : Str,
    (ensure_supported_language s = "english".toList ∨
     ensure_supported_language s = "telugu".toList ∨
     ensure_supported_language s = "hindi".toList ∨
     ensure_supported_language s = "odia".toList) ∧
    (lowerStr (pyStrip s) ∉ LANG_DISPLAY_keys →
      ensure_supported_language s = "english".toList) := by
  intro s
  constructor
  · by_cases h : lowerStr (pyStrip s) ∈ LANG_DISPLAY_keys
    · have h2 : ensure_supported_language s = lowerStr (pyStrip s) := by
        simp [ensure_supported_language, h]
      simp only [LANG_DISPLAY_keys, List.mem_cons, List.not_mem_nil, or_false] at h
      rcases h with h | h | h | h <;> simp [h2, h]
    · simp [ensure_supported_language, h]
  · intro h
    simp [ensure_supported_language, h]

/-- Witness for C10 at a concrete unsupported identifier. -/
theorem ensure_supported_language_total_witness :
    lowerStr (pyStrip "Klingon".toList) ∉ LANG_DISPLAY_keys ∧
    ensure_supported_language "Klingon".toList = "english".toList :=
  ⟨by decide, (ensure_supported_language_total "Klingon".toList).2 (by decide)⟩

/- ====================================================================
   C9 : save_pdf primary-to-fallback handoff
   ==================================================================== -/

/-- C9: when the primary (Playwright) render attempt raises, `save_pdf`
catches the exception and runs the ReportLab fallback on the same
invocation; when the fallback run (which writes the output file)
succeeds, the function returns `True` (overall success), and only a
failure of the fallback as well is surfaced to the caller. -/
theorem save_pdf_primary_failure : ∀ (text : Str) (e : RenderErr)
    (fb : List Str → Except RenderErr Unit),
    (fb (fallback_lines text) = Except.ok () →
      save_pdf text (Except.error e) fb = Except.ok true) ∧
    (∀ e2 : RenderErr, fb (fallback_lines text) = Except.error e2 →
      save_pdf text (Except.error e) fb = Except.error e2) := by
  intro text e fb
  constructor
  · intro h; simp [save_pdf, h]
  · intro e2 h; simp [save_pdf, h]

/-- Witness for C9: a concrete failing primary with a succeeding
fallback yields overall success. -/
theorem save_pdf_primary_failure_witness :
    (fun _ : List Str => (Except.ok () : Except RenderErr Unit))
        (fallback_lines "1. q?".toList) = Except.ok () ∧
    save_pdf "1. q?".toList (Except.error ⟨"no browser".toList⟩)
        (fun _ => Except.ok ()) = Except.ok true :=
  ⟨rfl, (save_pdf_primary_failure "1. q?".toList ⟨"no browser".toList⟩
      (fun _ => Except.ok ())).1 rfl⟩

/- ====================================================================
   C6 : fix_missing_answers
   ==================================================================== -/

/-- C6 counterexample: `"Answer."` is exactly an answer-label token with
no value and trailing punctuation, and bare `"उत्तर"` is the Hindi
answer-label spelling without its punctuation, yet `fix_missing_answers`
leaves both unchanged instead of producing the placeholder
`"Answer: A"`. -/
theorem fix_missing_answers_not_all_punct :
    fix_missing_answers "Answer.".toList = "Answer.".toList ∧
    fix_missing_answers "उत्तर".toList = "उत्तर".toList ∧
    "Answer.".toList ≠ "Answer: A".toList ∧
    "उत्तर".toList ≠ "Answer: A".toList := by
  refine ⟨?_, ?_, by decide, by decide⟩ <;> decide

/-- C6 (amended): `fix_missing_answers` replaces a (newline-free) line
with the canonical placeholder `"Answer: A"` exactly when the line's
trimmed, lowercased form is one of the four fixed spellings
`{"answer:", "answer", "उत्तर:", "ଉତ୍ତର:"}` (so: case-insensitively, the
English label with or without a trailing colon, and the Hindi and Odia
labels only with the colon); in particular a bare line `"Answer:"`
becomes `"Answer: A"`. -/
theorem fix_missing_answers_line : ∀ l : Str, '\n' ∉ l →
    (fix_missing_answers l =
      (if lowerStr (pyStrip l) ∈ answerBareSet then "Answer: A".toList else l)) ∧
    fix_missing_answers "Answer:".toList = "Answer: A".toList := by
  intro l hnl
  constructor
  · by_cases hl : l = []
    · subst hl
      simp [fix_missing_answers, pyStrip, lstrip, rstrip, lowerStr, answerBareSet]
    · rw [fix_missing_answers, if_neg hl, splitCh_no_sep hnl]
      simp only [List.map_cons, List.map_nil]
      rw [show joinCh '\n' [fmaLine l] = fmaLine l from rfl]
      rfl
  · decide

/-- Witness for C6 (amended) at the bare line `"Answer:"`. -/
theorem fix_missing_answers_line_witness :
    '\n' ∉ "Answer:".toList ∧
    fix_missing_answers "Answer:".toList =
      (if lowerStr (pyStrip "Answer:".toList) ∈ answerBareSet
       then "Answer: A".toList else "Answer:".toList) :=
  ⟨by decide, (fix_missing_answers_line "Answer:".toList (by decide)).1⟩

/- ====================================================================
   Parser lemmas (C3, C4, C7)
   ==================================================================== -/

theorem parseGo_nil_none (acc : List Question) : parseGo none acc [] = acc := rfl

theorem parseGo_nil_some (qc : Question) (acc : List Question) :
    parseGo (some qc) acc [] = acc ++ [qc] := rfl

theorem parseGo_cons_skip (cur : Option Question) (acc : List Question)
    (l : Str) (ls : List Str) (h : pyStrip l = []) :
    parseGo cur acc (l :: ls) = parseGo cur acc ls := by
  cases cur <;> simp [parseGo, h]

theorem parseGo_cons_q_none (acc : List Question) (l : Str) (ls : List Str)
    (n c : Str) (h1 : pyStrip l ≠ []) (h2 : qMatch (pyStrip l) = some (n, c)) :
    parseGo none acc (l :: ls) = parseGo (some ⟨n, c, [], []⟩) acc ls := by
  simp [parseGo, h1, h2]

theorem parseGo_cons_q_some (qc : Question) (acc : List Question) (l : Str)
    (ls : List Str) (n c : Str)
    (h1 : pyStrip l ≠ []) (h2 : qMatch (pyStrip l) = some (n, c)) :
    parseGo (some qc) acc (l :: ls) =
      parseGo (some ⟨n, c, [], []⟩) (acc ++ [qc]) ls := by
  simp [parseGo, h1, h2]

theorem parseGo_cons_none_other (acc : List Question) (l : Str) (ls : List Str)
    (h1 : pyStrip l ≠ []) (h2 : qMatch (pyStrip l) = none) :
    parseGo none acc (l :: ls) = parseGo none acc ls := by
  simp [parseGo, h1, h2]

theorem parseGo_cons_opt (qc : Question) (acc : List Question) (l : Str)
    (ls : List Str) (h1 : pyStrip l ≠ []) (h2 : qMatch (pyStrip l) = none)
    (h3 : optB (pyStrip l) = true) :
    parseGo (some qc) acc (l :: ls) =
      parseGo (some { qc with options := qc.options ++ [pyStrip l] }) acc ls := by
  simp [parseGo, h1, h2, h3]

theorem parseGo_cons_ans (qc : Question) (acc : List Question) (l : Str)
    (ls : List Str) (h1 : pyStrip l ≠ []) (h2 : qMatch (pyStrip l) = none)
    (h3 : optB (pyStrip l) = false) (h4 : ansStarts (pyStrip l) = true) :
    parseGo (some qc) acc (l :: ls) =
      parseGo (some { qc with answer := ansNorm (pyStrip l) }) acc ls := by
  simp [parseGo, h1, h2, h3, h4]

theorem parseGo_cons_other (qc : Question) (acc : List Question) (l : Str)
    (ls : List Str) (h1 : pyStrip l ≠ []) (h2 : qMatch (pyStrip l) = none)
    (h3 : optB (pyStrip l) = false) (h4 : ansStarts (pyStrip l) = false) :
    parseGo (some qc) acc (l :: ls) = parseGo (some qc) acc ls := by
  simp [parseGo, h1, h2, h3, h4]

theorem splitCh_append_cons {sep : Char} :
    ∀ {a : Str} (b : Str), sep ∉ a →
      splitCh sep (a ++ sep :: b) = a :: splitCh sep b := by
  intro a
  induction a with
  | nil => intro b _; simp [splitCh]
  | cons c cs ih =>
    intro b h
    have hc : ¬c = sep := fun hx => h (hx ▸ List.mem_cons_self c cs)
    have hcs : sep ∉ cs := fun hx => h (List.mem_cons_of_mem c hx)
    have hsp := ih b hcs
    simp only [List.cons_append, splitCh, if_neg hc, List.append_eq]
    rw [hsp]

theorem parseGo_opt_inv : ∀ (ls : List Str) (cur : Option Question)
    (acc : List Question),
    (∀ q ∈ acc, ∀ o ∈ q.options, optB o = true) →
    (∀ q, cur = some q → ∀ o ∈ q.options, optB o = true) →
    ∀ q ∈ parseGo cur acc ls, ∀ o ∈ q.options, optB o = true := by
  intro ls
  induction ls with
  | nil =>
    intro cur acc hacc hcur q hq
    cases cur with
    | none => rw [parseGo_nil_none] at hq; exact hacc q hq
    | some qc =>
      rw [parseGo_nil_some] at hq
      rcases List.mem_append.mp hq with h | h
      · exact hacc q h
      · rw [List.mem_singleton] at h
        subst h
        exact hcur q rfl
  | cons l ls ih =>
    intro cur acc hacc hcur q hq
    by_cases hs : pyStrip l = []
    · rw [parseGo_cons_skip _ _ _ _ hs] at hq
      exact ih cur acc hacc hcur q hq
    · match hqm : qMatch (pyStrip l) with
      | some (n, c) =>
        cases cur with
        | none =>
          rw [parseGo_cons_q_none _ _ _ _ _ hs hqm] at hq
          refine ih _ _ hacc ?_ q hq
          intro q2 hq2 o ho
          cases hq2
          simp at ho
        | some qc =>
          rw [parseGo_cons_q_some _ _ _ _ _ _ hs hqm] at hq
          refine ih _ _ ?_ ?_ q hq
          · intro q2 hq2
            rcases List.mem_append.mp hq2 with h | h
            · exact hacc q2 h
            · rw [List.mem_singleton] at h
              subst h
              exact hcur q2 rfl
          · intro q2 hq2 o ho
            cases hq2
            simp at ho
      | none =>
        cases cur with
        | none =>
          rw [parseGo_cons_none_other _ _ _ hs hqm] at hq
          exact ih none acc hacc (by intro q2 h2; cases h2) q hq
        | some qc =>
          by_cases hopt : optB (pyStrip l) = true
          · rw [parseGo_cons_opt _ _ _ _ hs hqm hopt] at hq
            refine ih _ _ hacc ?_ q hq
            intro q2 hq2 o ho
            cases hq2
            simp only [List.mem_append, List.mem_singleton] at ho
            rcases ho with h | h
            · exact hcur qc rfl o h
            · subst h; exact hopt
          · have hopt2 : optB (pyStrip l) = false := by
              cases h2 : optB (pyStrip l)
              · rfl
              · exact absurd h2 hopt
            by_cases hans : ansStarts (pyStrip l) = true
            · rw [parseGo_cons_ans _ _ _ _ hs hqm hopt2 hans] at hq
              refine ih _ _ hacc ?_ q hq
              intro q2 hq2 o ho
              cases hq2
              exact hcur qc rfl o ho
            · have hans2 : ansStarts (pyStrip l) = false := by
                cases h2 : ansStarts (pyStrip l)
                · rfl
                · exact absurd h2 hans
              rw [parseGo_cons_other _ _ _ _ hs hqm hopt2 hans2] at hq
              exact ih _ _ hacc hcur q hq

theorem parseGo_src : ∀ (ls : List Str) (cur : Option Question)
    (acc : List Question) (q : Question),
    q ∈ parseGo cur acc ls →
    q ∈ acc ∨
      (∃ qc, cur = some qc ∧ qc.number = q.number ∧ qc.content = q.content) ∨
      (∃ l ∈ ls, qMatch (pyStrip l) = some (q.number, q.content)) := by
  intro ls
  induction ls with
  | nil =>
    intro cur acc q hq
    cases cur with
    | none => rw [parseGo_nil_none] at hq; exact Or.inl hq
    | some qc =>
      rw [parseGo_nil_some] at hq
      rcases List.mem_append.mp hq with h | h
      · exact Or.inl h
      · rw [List.mem_singleton] at h
        subst h
        exact Or.inr (Or.inl ⟨q, rfl, rfl, rfl⟩)
  | cons l ls ih =>
    intro cur acc q hq
    have push : (q ∈ acc ∨
        (∃ qc, cur = some qc ∧ qc.number = q.number ∧ qc.content = q.content) ∨
        (∃ l2 ∈ ls, qMatch (pyStrip l2) = some (q.number, q.content))) →
        q ∈ acc ∨
        (∃ qc, cur = some qc ∧ qc.number = q.number ∧ qc.content = q.content) ∨
        (∃ l2 ∈ l :: ls, qMatch (pyStrip l2) = some (q.number, q.content)) := by
      rintro (h | h | ⟨l2, hl2, hm⟩)
      · exact Or.inl h
      · exact Or.inr (Or.inl h)
      · exact Or.inr (Or.inr ⟨l2, List.mem_cons_of_mem l hl2, hm⟩)
    by_cases hs : pyStrip l = []
    · rw [parseGo_cons_skip _ _ _ _ hs] at hq
      exact push (ih cur acc q hq)
    · match hqm : qMatch (pyStrip l) with
      | some (n, c) =>
        have newsrc : ∀ q2 : Question,
            (⟨n, c, [], []⟩ : Question).number = q2.number →
            (⟨n, c, [], []⟩ : Question).content = q2.content →
            ∃ l2 ∈ l :: ls, qMatch (pyStrip l2) = some (q2.number, q2.content) := by
          intro q2 h1 h2
          refine ⟨l, List.mem_cons_self l ls, ?_⟩
          rw [hqm]
          have h1' : n = q2.number := h1
          have h2' : c = q2.content := h2
          rw [h1', h2']
        cases cur with
        | none =>
          rw [parseGo_cons_q_none _ _ _ _ _ hs hqm] at hq
          rcases ih _ _ q hq with h | ⟨qc, hqc, h1, h2⟩ | ⟨l2, hl2, hm⟩
          · exact Or.inl h
          · cases hqc
            exact Or.inr (Or.inr (newsrc q h1 h2))
          · exact Or.inr (Or.inr ⟨l2, List.mem_cons_of_mem l hl2, hm⟩)
        | some qc =>
          rw [parseGo_cons_q_some _ _ _ _ _ _ hs hqm] at hq
          rcases ih _ _ q hq with h | ⟨qc2, hqc2, h1, h2⟩ | ⟨l2, hl2, hm⟩
          · rcases List.mem_append.mp h with h2 | h2
            · exact Or.inl h2
            · rw [List.mem_singleton] at h2
              subst h2
              exact Or.inr (Or.inl ⟨q, rfl, rfl, rfl⟩)
          · cases hqc2
            exact Or.inr (Or.inr (newsrc q h1 h2))
          · exact Or.inr (Or.inr ⟨l2, List.mem_cons_of_mem l hl2, hm⟩)
      | none =>
        have keep : ∀ qc2 : Question, qc2.number = qc2.number → True := fun _ _ => trivial
        cases cur with
        | none =>
          rw [parseGo_cons_none_other _ _ _ hs hqm] at hq
          exact push (ih none acc q hq)
        | some qc =>
          by_cases hopt : optB (pyStrip l) = true
          · rw [parseGo_cons_opt _ _ _ _ hs hqm hopt] at hq
            rcases ih _ _ q hq with h | ⟨qc2, hqc2, h1, h2⟩ | ⟨l2, hl2, hm⟩
            · exact Or.inl h
            · cases hqc2
              exact Or.inr (Or.inl ⟨qc, rfl, h1, h2⟩)
            · exact Or.inr (Or.inr ⟨l2, List.mem_cons_of_mem l hl2, hm⟩)
          · have hopt2 : optB (pyStrip l) = false := by
              cases h2 : optB (pyStrip l)
              · rfl
              · exact absurd h2 hopt
            by_cases hans : ansStarts (pyStrip l) = true
            · rw [parseGo_cons_ans _ _ _ _ hs hqm hopt2 hans] at hq
              rcases ih _ _ q hq with h | ⟨qc2, hqc2, h1, h2⟩ | ⟨l2, hl2, hm⟩
              · exact Or.inl h
              · cases hqc2
                exact Or.inr (Or.inl ⟨qc, rfl, h1, h2⟩)
              · exact Or.inr (Or.inr ⟨l2, List.mem_cons_of_mem l hl2, hm⟩)
            · have hans2 : ansStarts (pyStrip l) = false := by
                cases h2 : ansStarts (pyStrip l)
                · rfl
                · exact absurd h2 hans
              rw [parseGo_cons_other _ _ _ _ hs hqm hopt2 hans2] at hq
              exact push (ih _ _ q hq)

/- ====================================================================
   C3 : options per question
   ==================================================================== -/

/-- C3 counterexample: five identical `A)` option lines under one
question all get appended, so a Question can hold more than four options
and the option letters need not be unique. -/
theorem parse_mcq_text_five_options :
    (parse_mcq_text "1. q?\nA) 1\nA) 2\nA) 3\nA) 4\nA) 5".toList).map
        (fun q => q.options.length) = [5] ∧
    ¬ (5 ≤ 4) ∧
    (parse_mcq_text "1. q?\nA) 1\nA) 2\nA) 3\nA) 4\nA) 5".toList).map
        (fun q => q.options.map (fun o => o.head?)) =
      [[some 'A', some 'A', some 'A', some 'A', some 'A']] := by
  refine ⟨by decide, by decide, by decide⟩

/-- C3 (amended): every option entry stored by `parse_mcq_text` is an
option-shaped stripped line (a letter `A`–`D` followed by `)`), appended
in scan order; the parser enforces no four-option cap and no
letter-uniqueness within a question. -/
theorem parse_mcq_text_options_shape : ∀ (t : Str) (q : Question) (o : Str),
    q ∈ parse_mcq_text t → o ∈ q.options → optB o = true := by
  intro t q o hq ho
  by_cases ht : t = []
  · subst ht
    simp [parse_mcq_text] at hq
  · rw [parse_mcq_text, if_neg ht] at hq
    exact parseGo_opt_inv (splitCh '\n' t) none []
      (by intro q2 h2; cases h2) (by intro q2 h2; cases h2) q hq o ho

/-- Witness for C3 (amended) at a concrete parse. -/
theorem parse_mcq_text_options_shape_witness :
    (⟨"1".toList, "q?".toList, ["A) x".toList], []⟩ : Question) ∈
        parse_mcq_text "1. q?\nA) x".toList ∧
    "A) x".toList ∈
        (⟨"1".toList, "q?".toList, ["A) x".toList], []⟩ : Question).options ∧
    optB "A) x".toList = true :=
  ⟨by decide, by decide,
    parse_mcq_text_options_shape "1. q?\nA) x".toList
      ⟨"1".toList, "q?".toList, ["A) x".toList], []⟩ "A) x".toList
      (by decide) (by decide)⟩

/- ====================================================================
   C7 : no ghost questions
   ==================================================================== -/

/-- C7: every Question returned by `parse_mcq_text` originates from a
line of the input whose stripped form matches the question pattern
(digits, period, text ending in `?`), the match providing exactly the
Question's number and content; hence option or answer lines seen before
any question line can never produce a detached entry (an output on an
input with no question-matching line would violate this). -/
theorem parse_mcq_text_no_ghosts : ∀ (t : Str) (q : Question),
    q ∈ parse_mcq_text t →
    ∃ l ∈ splitCh '\n' t, qMatch (pyStrip l) = some (q.number, q.content) := by
  intro t q hq
  by_cases ht : t = []
  · subst ht
    simp [parse_mcq_text] at hq
  · rw [parse_mcq_text, if_neg ht] at hq
    rcases parseGo_src (splitCh '\n' t) none [] q hq with h | ⟨qc, hqc, -⟩ | h
    · cases h
    · cases hqc
    · exact h

/-- Witness for C7 at a concrete parse. -/
theorem parse_mcq_text_no_ghosts_witness :
    (⟨"1".toList, "ok?".toList, [], []⟩ : Question) ∈
        parse_mcq_text "A) stray\nAnswer: C\n1. ok?".toList ∧
    ∃ l ∈ splitCh '\n' "A) stray\nAnswer: C\n1. ok?".toList,
      qMatch (pyStrip l) = some ("1".toList, "ok?".toList) :=
  ⟨by decide,
    parse_mcq_text_no_ghosts "A) stray\nAnswer: C\n1. ok?".toList
      ⟨"1".toList, "ok?".toList, [], []⟩ (by decide)⟩

/- ====================================================================
   C4 : answer normalization in the parser
   ==================================================================== -/

/-- C4 counterexample: for the answer line `"answer: B: x"` (which does
not begin with the literal `"Answer:"`), the parser stores
`"Answer: x"` — the text after the LAST colon — not `"Answer: B: x"`,
the canonical form built from everything after the first colon. -/
theorem parse_mcq_text_last_colon :
    (parse_mcq_text "1. q?\nanswer: B: x".toList).map (fun q => q.answer) =
      ["Answer: x".toList] ∧
    "Answer: x".toList ≠ "Answer: B: x".toList :=
  ⟨by decide, by decide⟩

/-- C4 (amended): a (newline-free) line whose trimmed form
case-insensitively starts with `answer`, reached while a Question is in
progress (and not matching the question or option patterns), sets the
Question's answer to the line itself when it already begins with
`Answer:`, and otherwise to `Answer: <value>` where `<value>` is the
trimmed text after the LAST colon of the line (the whole line when it
has no colon). -/
theorem parse_mcq_text_answer_norm : ∀ ans : Str,
    '\n' ∉ ans →
    ansStarts (pyStrip ans) = true →
    optB (pyStrip ans) = false →
    qMatch (pyStrip ans) = none →
    parse_mcq_text ("1. q?".toList ++ '\n' :: ans) =
      [⟨"1".toList, "q?".toList, [],
        if begins "Answer:".toList (pyStrip ans) then pyStrip ans
        else "Answer: ".toList ++ pyStrip (afterLastColon (pyStrip ans))⟩] := by
  intro ans hnl hans hopt hqm
  have hne : ("1. q?".toList ++ '\n' :: ans) ≠ [] := by simp
  have hsne : pyStrip ans ≠ [] := by
    intro h
    rw [h] at hans
    simp [ansStarts, lowerStr, begins] at hans
  rw [parse_mcq_text, if_neg hne]
  rw [splitCh_append_cons ans (by decide)]
  rw [splitCh_no_sep hnl]
  rw [parseGo_cons_q_none _ _ _ "1".toList "q?".toList (by decide) (by decide)]
  rw [parseGo_cons_ans _ _ _ _ hsne hqm hopt hans]
  rw [parseGo_nil_some]
  rfl

/-- Witness for C4 (amended) at the concrete answer line
`"answer: B"`. -/
theorem parse_mcq_text_answer_norm_witness :
    ('\n' ∉ "answer: B".toList ∧
     ansStarts (pyStrip "answer: B".toList) = true ∧
     optB (pyStrip "answer: B".toList) = false ∧
     qMatch (pyStrip "answer: B".toList) = none) ∧
    parse_mcq_text ("1. q?".toList ++ '\n' :: "answer: B".toList) =
      [⟨"1".toList, "q?".toList, [],
        if begins "Answer:".toList (pyStrip "answer: B".toList)
        then pyStrip "answer: B".toList
        else "Answer: ".toList ++
          pyStrip (afterLastColon (pyStrip "answer: B".toList))⟩] :=
  ⟨⟨by decide, by decide, by decide, by decide⟩,
    parse_mcq_text_answer_norm "answer: B".toList
      (by decide) (by decide) (by decide) (by decide)⟩

/- ====================================================================
   C5 : option-marker assignment
   ==================================================================== -/

theorem splitCh_joinCh (sep : Char) : ∀ L : List Str, L ≠ [] →
    (∀ p ∈ L, sep ∉ p) → splitCh sep (joinCh sep L) = L := by
  intro L
  induction L with
  | nil => intro h _; exact absurd rfl h
  | cons l rest ih =>
    intro _ hns
    cases rest with
    | nil =>
      have : joinCh sep [l] = l := rfl
      rw [this, splitCh_no_sep (hns l (List.mem_cons_self l []))]
    | cons l2 rest2 =>
      have hj : joinCh sep (l :: l2 :: rest2) = l ++ sep :: joinCh sep (l2 :: rest2) := rfl
      rw [hj, splitCh_append_cons _ (hns l (List.mem_cons_self _ _))]
      rw [ih (by simp) (fun p hp => hns p (List.mem_cons_of_mem l hp))]

theorem fmomProc_append : ∀ (xs ys accRev : List Str),
    fmomProc accRev (xs ++ ys) =
      fmomProc accRev xs ++
        fmomProc ((fmomProc accRev xs).reverse ++ accRev) ys := by
  intro xs
  induction xs with
  | nil => intro ys accRev; simp [fmomProc]
  | cons l xs ih =>
    intro ys accRev
    simp only [List.cons_append, fmomProc]
    simp only [List.append_eq]
    rw [ih]
    simp [List.reverse_cons, List.append_assoc]

/-- C5: in `fix_missing_option_markers`, a line whose stripped form
starts with `)` immediately followed by a non-space character is
prefixed with the letter `chr(65 + count)`, where `count` is the number
of well-formed option lines (`A)`–`D)`) among the already-corrected
lines since the most recent question-number line, when fewer than four
are present, and is left unmodified when four are; in particular
`") 4"` right after the single option line `"A) 3"` becomes `"B) 4"`,
and a fifth truncated option line after four options keeps no letter. -/
theorem fix_missing_option_markers_assigns :
    (∀ (pre post : List Str) (l : Str) (c : Char) (cs : Str),
      (∀ p ∈ pre, '\n' ∉ p) → (∀ p ∈ post, '\n' ∉ p) → '\n' ∉ l →
      pyStrip l = ')' :: c :: cs → c.isWhitespace = false →
      fix_missing_option_markers (joinCh '\n' (pre ++ l :: post)) =
        joinCh '\n' (fmomProc [] pre ++
          (if countBack ((fmomProc [] pre).reverse) < 4 then
            Char.ofNat (65 + countBack ((fmomProc [] pre).reverse)) :: pyStrip l
           else l) ::
          fmomProc
            ((if countBack ((fmomProc [] pre).reverse) < 4 then
               Char.ofNat (65 + countBack ((fmomProc [] pre).reverse)) :: pyStrip l
              else l) :: (fmomProc [] pre).reverse) post)) ∧
    fix_missing_option_markers "A) 3\n) 4".toList = "A) 3\nB) 4".toList ∧
    fix_missing_option_markers ")a\n)b\n)c\n)d\n)e".toList =
      "A)a\nB)b\nC)c\nD)d\n)e".toList := by
  refine ⟨?_, by decide, by decide⟩
  intro pre post l c cs hpre hpost hl hstrip hc
  have hLnn : ∀ p ∈ pre ++ l :: post, '\n' ∉ p := by
    intro p hp
    rcases List.mem_append.mp hp with h | h
    · exact hpre p h
    · rcases List.mem_cons.mp h with h2 | h2
      · subst h2; exact hl
      · exact hpost p h2
  have hsj := splitCh_joinCh '\n' (pre ++ l :: post) (by simp) hLnn
  have hlne : l ≠ [] := by
    intro h
    rw [h] at hstrip
    simp [pyStrip, lstrip, rstrip] at hstrip
  have hne : joinCh '\n' (pre ++ l :: post) ≠ [] := by
    intro h
    rw [h] at hsj
    have : l ∈ splitCh '\n' ([] : Str) := by
      rw [hsj]
      exact List.mem_append.mpr (Or.inr (List.mem_cons_self l post))
    simp [splitCh] at this
    exact hlne this
  rw [fix_missing_option_markers, if_neg hne, hsj]
  rw [fmomProc_append]
  simp only [List.append_nil]
  have hstep : fmomStep ((fmomProc [] pre).reverse) l =
      (if countBack ((fmomProc [] pre).reverse) < 4 then
        Char.ofNat (65 + countBack ((fmomProc [] pre).reverse)) :: pyStrip l
       else l) := by
    rw [fmomStep, hstrip]
    rfl
  rw [show fmomProc ((fmomProc [] pre).reverse) (l :: post) =
      fmomStep ((fmomProc [] pre).reverse) l ::
        fmomProc (fmomStep ((fmomProc [] pre).reverse) l ::
          (fmomProc [] pre).reverse) post from rfl]
  rw [hstep]

/-- Witness for C5's general clause: the truncated option line `")4"`
after the single option line `"A) 3"`. -/
theorem fix_missing_option_markers_assigns_witness :
    ((∀ p ∈ [("A) 3".toList)], '\n' ∉ p) ∧
     (∀ p ∈ ([] : List Str), '\n' ∉ p) ∧ '\n' ∉ ")4".toList ∧
     pyStrip ")4".toList = ')' :: '4' :: [] ∧ '4'.isWhitespace = false) ∧
    fix_missing_option_markers
        (joinCh '\n' (["A) 3".toList] ++ ")4".toList :: [])) =
      joinCh '\n' (fmomProc [] ["A) 3".toList] ++
        (if countBack ((fmomProc [] ["A) 3".toList]).reverse) < 4 then
          Char.ofNat (65 + countBack ((fmomProc [] ["A) 3".toList]).reverse)) ::
            pyStrip ")4".toList
         else ")4".toList) ::
        fmomProc
          ((if countBack ((fmomProc [] ["A) 3".toList]).reverse) < 4 then
             Char.ofNat (65 + countBack ((fmomProc [] ["A) 3".toList]).reverse)) ::
               pyStrip ")4".toList
            else ")4".toList) :: (fmomProc [] ["A) 3".toList]).reverse) []) :=
  ⟨⟨by decide, by decide, by decide, by decide, by decide⟩,
    (fix_missing_option_markers_assigns).1 ["A) 3".toList] [] ")4".toList '4' []
      (by decide) (by decide) (by decide) (by decide) (by decide)⟩

/- ====================================================================
   C2 / C8 : clean_text_html characterization
   ==================================================================== -/

/-- `clash pat s` holds when `pat` disagrees with `s` at some position
inside `s`, so that `pat` can begin neither `s` nor any extension
`s ++ t`. -/
def clash : Str → Str → Bool
  | _, [] => false
  | [], _ :: _ => false
  | p :: ps, c :: cs => if p == c then clash ps cs else true

/-- `allClash pat block` holds when every nonempty suffix of `block`
clashes with `pat`: no occurrence of `pat` can start inside `block`,
whatever follows it. -/
def allClash (pat : Str) : Str → Bool
  | [] => true
  | c :: cs => clash pat (c :: cs) && allClash pat cs

theorem begins_of_clash : ∀ (pat s t : Str), clash pat s = true →
    begins pat (s ++ t) = false := by
  intro pat
  induction pat with
  | nil => intro s t h; cases s <;> simp [clash] at h
  | cons p ps ih =>
    intro s t h
    cases s with
    | nil => simp [clash] at h
    | cons c cs =>
      by_cases hpc : (p == c) = true
      · simp only [clash, if_pos hpc] at h
        simp only [List.cons_append, begins, hpc, Bool.true_and]
        exact ih cs t h
      · have : (p == c) = false := by
          cases h2 : (p == c)
          · rfl
          · exact absurd h2 hpc
        simp [begins, this]

theorem begins_refl_append : ∀ (pat t : Str), begins pat (pat ++ t) = true := by
  intro pat
  induction pat with
  | nil => intro t; rfl
  | cons p ps ih => intro t; simp [begins, ih]

theorem pyReplace_step_skip (pat rep : Str) (c : Char) (cs : Str)
    (h : begins pat (c :: cs) = false) :
    pyReplace pat rep (c :: cs) = c :: pyReplace pat rep cs := by
  rw [pyReplace]
  rw [dif_neg]
  intro hx
  rw [hx.1] at h
  cases h

theorem pyReplace_block (pat rep : Str) (hne : pat ≠ []) :
    ∀ (block t : Str), allClash pat block = true →
      pyReplace pat rep (block ++ t) = block ++ pyReplace pat rep t := by
  intro block
  induction block with
  | nil => intro t _; rfl
  | cons c cs ih =>
    intro t h
    simp only [allClash, Bool.and_eq_true] at h
    have hb : begins pat ((c :: cs) ++ t) = false := begins_of_clash pat (c :: cs) t h.1
    simp only [List.cons_append] at hb ⊢
    rw [pyReplace_step_skip pat rep c (cs ++ t) hb]
    rw [ih t h.2]

theorem pyReplace_pat (pat rep : Str) (hne : pat ≠ []) (t : Str) :
    pyReplace pat rep (pat ++ t) = rep ++ pyReplace pat rep t := by
  match hp : pat with
  | [] => exact absurd rfl hne
  | p :: ps =>
    have hbeg : begins (p :: ps) (p :: (ps ++ t)) = true := by
      have h2 := begins_refl_append (p :: ps) t
      simpa using h2
    have hdrop : List.drop (p :: ps).length (p :: (ps ++ t)) = t := by
      have h2 := List.drop_left (p :: ps) t
      simpa using h2
    rw [show (p :: ps) ++ t = p :: (ps ++ t) from rfl, pyReplace]
    rw [dif_pos ⟨hbeg, hne⟩]
    rw [hdrop]

theorem allClash_single (p : Char) (ps : Str) (c : Char) (h : c ≠ p) :
    allClash (p :: ps) [c] = true := by
  have hpc : (p == c) = false := by
    cases h2 : (p == c)
    · rfl
    · exact absurd (beq_iff_eq.mp h2).symm h
  simp [allClash, clash, hpc]

/-- Character-wise effect of `s.replace("&", "&amp;")`. -/
def e1 (c : Char) : Str := if c = '&' then "&amp;".toList else [c]

/-- After `.replace("<", "&lt;")`. -/
def e2 (c : Char) : Str := if c = '<' then "&lt;".toList else e1 c

/-- After `.replace(">", "&gt;")`. -/
def e3 (c : Char) : Str := if c = '>' then "&gt;".toList else e2 c

/-- After `.replace('"', "&quot;")`. -/
def e4 (c : Char) : Str := if c = '"' then "&quot;".toList else e3 c

/-- After `.replace("'", "&#x27;")` — the full `html.escape`. -/
def e5 (c : Char) : Str := if c = '\'' then "&#x27;".toList else e4 c

/-- After `.replace("&lt;", "<")`. -/
def f1 (c : Char) : Str := if c = '<' then ['<'] else e5 c

/-- After `.replace("&gt;", ">")`. -/
def f2 (c : Char) : Str := if c = '>' then ['>'] else f1 c

/-- After `.replace("&amp;", "&")` — only quotes remain escaped. -/
def f3 (c : Char) : Str := if c = '&' then ['&'] else f2 c

/-- Blockwise expansion of a character translation over a string. -/
def charExp (f : Char → Str) : Str → Str
  | [] => []
  | c :: cs => f c ++ charExp f cs

theorem charExp_cons (f : Char → Str) (c : Char) (cs : Str) :
    charExp f (c :: cs) = f c ++ charExp f cs := rfl

theorem pyReplace_nil (pat rep : Str) : pyReplace pat rep [] = [] := by
  simp [pyReplace]

theorem stageE1 : ∀ s : Str,
    pyReplace "&".toList "&amp;".toList s = charExp e1 s := by
  intro s
  induction s with
  | nil => rw [show charExp e1 ([] : Str) = [] from rfl]; rw [pyReplace_nil]
  | cons c cs ih =>
    rw [charExp_cons]
    by_cases h1 : c = '&'
    · subst h1
      rw [show ('&' :: cs : Str) = "&".toList ++ cs from rfl,
          show e1 '&' = "&amp;".toList from by decide,
          pyReplace_pat "&".toList "&amp;".toList (by decide) (cs),
          ih]
    · 
      rw [show (c :: cs : Str) = [c] ++ cs from rfl,
          show e1 c = [c] from by simp [e1, h1],
          pyReplace_block "&".toList "&amp;".toList (by decide) [c] (cs) (allClash_single '&' [] c h1),
          ih]

theorem stageE2 : ∀ s : Str,
    pyReplace "<".toList "&lt;".toList (charExp e1 s) = charExp e2 s := by
  intro s
  induction s with
  | nil => rw [show charExp e1 ([] : Str) = [] from rfl]; rw [pyReplace_nil]; exact rfl
  | cons c cs ih =>
    rw [charExp_cons, charExp_cons]
    by_cases h1 : c = '&'
    · subst h1
      rw [show e1 '&' = "&amp;".toList from by decide,
          show e2 '&' = "&amp;".toList from by decide,
          pyReplace_block "<".toList "&lt;".toList (by decide) "&amp;".toList (charExp e1 cs) (by decide),
          ih]
    · 
      by_cases h2 : c = '<'
      · subst h2
        rw [show e1 '<' = "<".toList from by decide,
            show e2 '<' = "&lt;".toList from by decide,
            pyReplace_pat "<".toList "&lt;".toList (by decide) (charExp e1 cs),
            ih]
      · 
        rw [show e1 c = [c] from by simp [e1, h1, h2],
            show e2 c = [c] from by simp [e2, e1, h1, h2],
            pyReplace_block "<".toList "&lt;".toList (by decide) [c] (charExp e1 cs) (allClash_single '<' [] c h2),
            ih]

theorem stageE3 : ∀ s : Str,
    pyReplace ">".toList "&gt;".toList (charExp e2 s) = charExp e3 s := by
  intro s
  induction s with
  | nil => rw [show charExp e2 ([] : Str) = [] from rfl]; rw [pyReplace_nil]; exact rfl
  | cons c cs ih =>
    rw [charExp_cons, charExp_cons]
    by_cases h1 : c = '&'
    · subst h1
      rw [show e2 '&' = "&amp;".toList from by decide,
          show e3 '&' = "&amp;".toList from by decide,
          pyReplace_block ">".toList "&gt;".toList (by decide) "&amp;".toList (charExp e2 cs) (by decide),
          ih]
    · 
      by_cases h2 : c = '<'
      · subst h2
        rw [show e2 '<' = "&lt;".toList from by decide,
            show e3 '<' = "&lt;".toList from by decide,
            pyReplace_block ">".toList "&gt;".toList (by decide) "&lt;".toList (charExp e2 cs) (by decide),
            ih]
      · 
        by_cases h3 : c = '>'
        · subst h3
          rw [show e2 '>' = ">".toList from by decide,
              show e3 '>' = "&gt;".toList from by decide,
              pyReplace_pat ">".toList "&gt;".toList (by decide) (charExp e2 cs),
              ih]
        · 
          rw [show e2 c = [c] from by simp [e2, e1, h1, h2, h3],
              show e3 c = [c] from by simp [e3, e2, e1, h1, h2, h3],
              pyReplace_block ">".toList "&gt;".toList (by decide) [c] (charExp e2 cs) (allClash_single '>' [] c h3),
              ih]

theorem stageE4 : ∀ s : Str,
    pyReplace "\"".toList "&quot;".toList (charExp e3 s) = charExp e4 s := by
  intro s
  induction s with
  | nil => rw [show charExp e3 ([] : Str) = [] from rfl]; rw [pyReplace_nil]; exact rfl
  | cons c cs ih =>
    rw [charExp_cons, charExp_cons]
    by_cases h1 : c = '&'
    · subst h1
      rw [show e3 '&' = "&amp;".toList from by decide,
          show e4 '&' = "&amp;".toList from by decide,
          pyReplace_block "\"".toList "&quot;".toList (by decide) "&amp;".toList (charExp e3 cs) (by decide),
          ih]
    · 
      by_cases h2 : c = '<'
      · subst h2
        rw [show e3 '<' = "&lt;".toList from by decide,
            show e4 '<' = "&lt;".toList from by decide,
            pyReplace_block "\"".toList "&quot;".toList (by decide) "&lt;".toList (charExp e3 cs) (by decide),
            ih]
      · 
        by_cases h3 : c = '>'
        · subst h3
          rw [show e3 '>' = "&gt;".toList from by decide,
              show e4 '>' = "&gt;".toList from by decide,
              pyReplace_block "\"".toList "&quot;".toList (by decide) "&gt;".toList (charExp e3 cs) (by decide),
              ih]
        · 
          by_cases h4 : c = '"'
          · subst h4
            rw [show e3 '"' = "\"".toList from by decide,
                show e4 '"' = "&quot;".toList from by decide,
                pyReplace_pat "\"".toList "&quot;".toList (by decide) (charExp e3 cs),
                ih]
          · 
            rw [show e3 c = [c] from by simp [e3, e2, e1, h1, h2, h3, h4],
                show e4 c = [c] from by simp [e4, e3, e2, e1, h1, h2, h3, h4],
                pyReplace_block "\"".toList "&quot;".toList (by decide) [c] (charExp e3 cs) (allClash_single '"' [] c h4),
                ih]

theorem stageE5 : ∀ s : Str,
    pyReplace "'".toList "&#x27;".toList (charExp e4 s) = charExp e5 s := by
  intro s
  induction s with
  | nil => rw [show charExp e4 ([] : Str) = [] from rfl]; rw [pyReplace_nil]; exact rfl
  | cons c cs ih =>
    rw [charExp_cons, charExp_cons]
    by_cases h1 : c = '&'
    · subst h1
      rw [show e4 '&' = "&amp;".toList from by decide,
          show e5 '&' = "&amp;".toList from by decide,
          pyReplace_block "'".toList "&#x27;".toList (by decide) "&amp;".toList (charExp e4 cs) (by decide),
          ih]
    · 
      by_cases h2 : c = '<'
      · subst h2
        rw [show e4 '<' = "&lt;".toList from by decide,
            show e5 '<' = "&lt;".toList from by decide,
            pyReplace_block "'".toList "&#x27;".toList (by decide) "&lt;".toList (charExp e4 cs) (by decide),
            ih]
      · 
        by_cases h3 : c = '>'
        · subst h3
          rw [show e4 '>' = "&gt;".toList from by decide,
              show e5 '>' = "&gt;".toList from by decide,
              pyReplace_block "'".toList "&#x27;".toList (by decide) "&gt;".toList (charExp e4 cs) (by decide),
              ih]
        · 
          by_cases h4 : c = '"'
          · subst h4
            rw [show e4 '"' = "&quot;".toList from by decide,
                show e5 '"' = "&quot;".toList from by decide,
                pyReplace_block "'".toList "&#x27;".toList (by decide) "&quot;".toList (charExp e4 cs) (by decide),
                ih]
          · 
            by_cases h5 : c = '\''
            · subst h5
              rw [show e4 '\'' = "'".toList from by decide,
                  show e5 '\'' = "&#x27;".toList from by decide,
                  pyReplace_pat "'".toList "&#x27;".toList (by decide) (charExp e4 cs),
                  ih]
            · 
              rw [show e4 c = [c] from by simp [e4, e3, e2, e1, h1, h2, h3, h4, h5],
                  show e5 c = [c] from by simp [e5, e4, e3, e2, e1, h1, h2, h3, h4, h5],
                  pyReplace_block "'".toList "&#x27;".toList (by decide) [c] (charExp e4 cs) (allClash_single '\'' [] c h5),
                  ih]

theorem stageU1 : ∀ s : Str,
    pyReplace "&lt;".toList "<".toList (charExp e5 s) = charExp f1 s := by
  intro s
  induction s with
  | nil => rw [show charExp e5 ([] : Str) = [] from rfl]; rw [pyReplace_nil]; exact rfl
  | cons c cs ih =>
    rw [charExp_cons, charExp_cons]
    by_cases h1 : c = '&'
    · subst h1
      rw [show e5 '&' = "&amp;".toList from by decide,
          show f1 '&' = "&amp;".toList from by decide,
          pyReplace_block "&lt;".toList "<".toList (by decide) "&amp;".toList (charExp e5 cs) (by decide),
          ih]
    · 
      by_cases h2 : c = '<'
      · subst h2
        rw [show e5 '<' = "&lt;".toList from by decide,
            show f1 '<' = "<".toList from by decide,
            pyReplace_pat "&lt;".toList "<".toList (by decide) (charExp e5 cs),
            ih]
      · 
        by_cases h3 : c = '>'
        · subst h3
          rw [show e5 '>' = "&gt;".toList from by decide,
              show f1 '>' = "&gt;".toList from by decide,
              pyReplace_block "&lt;".toList "<".toList (by decide) "&gt;".toList (charExp e5 cs) (by decide),
              ih]
        · 
          by_cases h4 : c = '"'
          · subst h4
            rw [show e5 '"' = "&quot;".toList from by decide,
                show f1 '"' = "&quot;".toList from by decide,
                pyReplace_block "&lt;".toList "<".toList (by decide) "&quot;".toList (charExp e5 cs) (by decide),
                ih]
          · 
            by_cases h5 : c = '\''
            · subst h5
              rw [show e5 '\'' = "&#x27;".toList from by decide,
                  show f1 '\'' = "&#x27;".toList from by decide,
                  pyReplace_block "&lt;".toList "<".toList (by decide) "&#x27;".toList (charExp e5 cs) (by decide),
                  ih]
            · 
              rw [show e5 c = [c] from by simp [e5, e4, e3, e2, e1, h1, h2, h3, h4, h5],
                  show f1 c = [c] from by simp [f1, e5, e4, e3, e2, e1, h1, h2, h3, h4, h5],
                  pyReplace_block "&lt;".toList "<".toList (by decide) [c] (charExp e5 cs) (allClash_single '&' "lt;".toList c h1),
                  ih]

theorem stageU2 : ∀ s : Str,
    pyReplace "&gt;".toList ">".toList (charExp f1 s) = charExp f2 s := by
  intro s
  induction s with
  | nil => rw [show charExp f1 ([] : Str) = [] from rfl]; rw [pyReplace_nil]; exact rfl
  | cons c cs ih =>
    rw [charExp_cons, charExp_cons]
    by_cases h1 : c = '&'
    · subst h1
      rw [show f1 '&' = "&amp;".toList from by decide,
          show f2 '&' = "&amp;".toList from by decide,
          pyReplace_block "&gt;".toList ">".toList (by decide) "&amp;".toList (charExp f1 cs) (by decide),
          ih]
    · 
      by_cases h2 : c = '<'
      · subst h2
        rw [show f1 '<' = "<".toList from by decide,
            show f2 '<' = "<".toList from by decide,
            pyReplace_block "&gt;".toList ">".toList (by decide) "<".toList (charExp f1 cs) (by decide),
            ih]
      · 
        by_cases h3 : c = '>'
        · subst h3
          rw [show f1 '>' = "&gt;".toList from by decide,
              show f2 '>' = ">".toList from by decide,
              pyReplace_pat "&gt;".toList ">".toList (by decide) (charExp f1 cs),
              ih]
        · 
          by_cases h4 : c = '"'
          · subst h4
            rw [show f1 '"' = "&quot;".toList from by decide,
                show f2 '"' = "&quot;".toList from by decide,
                pyReplace_block "&gt;".toList ">".toList (by decide) "&quot;".toList (charExp f1 cs) (by decide),
                ih]
          · 
            by_cases h5 : c = '\''
            · subst h5
              rw [show f1 '\'' = "&#x27;".toList from by decide,
                  show f2 '\'' = "&#x27;".toList from by decide,
                  pyReplace_block "&gt;".toList ">".toList (by decide) "&#x27;".toList (charExp f1 cs) (by decide),
                  ih]
            · 
              rw [show f1 c = [c] from by simp [f1, e5, e4, e3, e2, e1, h1, h2, h3, h4, h5],
                  show f2 c = [c] from by simp [f2, f1, e5, e4, e3, e2, e1, h1, h2, h3, h4, h5],
                  pyReplace_block "&gt;".toList ">".toList (by decide) [c] (charExp f1 cs) (allClash_single '&' "gt;".toList c h1),
                  ih]

theorem stageU3 : ∀ s : Str,
    pyReplace "&amp;".toList "&".toList (charExp f2 s) = charExp f3 s := by
  intro s
  induction s with
  | nil => rw [show charExp f2 ([] : Str) = [] from rfl]; rw [pyReplace_nil]; exact rfl
  | cons c cs ih =>
    rw [charExp_cons, charExp_cons]
    by_cases h1 : c = '&'
    · subst h1
      rw [show f2 '&' = "&amp;".toList from by decide,
          show f3 '&' = "&".toList from by decide,
          pyReplace_pat "&amp;".toList "&".toList (by decide) (charExp f2 cs),
          ih]
    · 
      by_cases h2 : c = '<'
      · subst h2
        rw [show f2 '<' = "<".toList from by decide,
            show f3 '<' = "<".toList from by decide,
            pyReplace_block "&amp;".toList "&".toList (by decide) "<".toList (charExp f2 cs) (by decide),
            ih]
      · 
        by_cases h3 : c = '>'
        · subst h3
          rw [show f2 '>' = ">".toList from by decide,
              show f3 '>' = ">".toList from by decide,
              pyReplace_block "&amp;".toList "&".toList (by decide) ">".toList (charExp f2 cs) (by decide),
              ih]
        · 
          by_cases h4 : c = '"'
          · subst h4
            rw [show f2 '"' = "&quot;".toList from by decide,
                show f3 '"' = "&quot;".toList from by decide,
                pyReplace_block "&amp;".toList "&".toList (by decide) "&quot;".toList (charExp f2 cs) (by decide),
                ih]
          · 
            by_cases h5 : c = '\''
            · subst h5
              rw [show f2 '\'' = "&#x27;".toList from by decide,
                  show f3 '\'' = "&#x27;".toList from by decide,
                  pyReplace_block "&amp;".toList "&".toList (by decide) "&#x27;".toList (charExp f2 cs) (by decide),
                  ih]
            · 
              rw [show f2 c = [c] from by simp [f2, f1, e5, e4, e3, e2, e1, h1, h2, h3, h4, h5],
                  show f3 c = [c] from by simp [f3, f2, f1, e5, e4, e3, e2, e1, h1, h2, h3, h4, h5],
                  pyReplace_block "&amp;".toList "&".toList (by decide) [c] (charExp f2 cs) (allClash_single '&' "amp;".toList c h1),
                  ih]

theorem charExp_f3_quoteEsc : ∀ s : Str, charExp f3 s = quoteEscStr s := by
  intro s
  induction s with
  | nil => rfl
  | cons c cs ih =>
    rw [charExp_cons, show quoteEscStr (c :: cs) = quoteEsc c ++ quoteEscStr cs from rfl, ih]
    have hfq : f3 c = quoteEsc c := by
      by_cases h1 : c = '&'
      · subst h1; decide
      · by_cases h2 : c = '<'
        · subst h2; decide
        · by_cases h3 : c = '>'
          · subst h3; decide
          · by_cases h4 : c = '"'
            · subst h4; decide
            · by_cases h5 : c = '\''
              · subst h5; decide
              · simp [f3, f2, f1, e5, e4, e3, e2, e1, quoteEsc, h1, h2, h3, h4, h5]
    rw [hfq]

/-- Characterization of `clean_text_html`: the escape-then-unescape
chain leaves exactly the quote characters escaped, then strips. -/
theorem clean_text_html_charQ : ∀ s : Str,
    clean_text_html s = pyStrip (quoteEscStr s) := by
  intro s
  by_cases hs : s = []
  · subst hs; rfl
  · rw [clean_text_html, if_neg hs, htmlEscape]
    rw [stageE1 s, stageE2 s, stageE3 s, stageE4 s, stageE5 s,
        stageU1 s, stageU2 s, stageU3 s, charExp_f3_quoteEsc s]

theorem dropWhile_idem (p : Char → Bool) : ∀ l : Str,
    List.dropWhile p (List.dropWhile p l) = List.dropWhile p l := by
  intro l
  induction l with
  | nil => rfl
  | cons c cs ih =>
    by_cases h : p c = true
    · rw [List.dropWhile_cons_of_pos h]
      exact ih
    · rw [List.dropWhile_cons_of_neg h, List.dropWhile_cons_of_neg h]

theorem rstrip_idem : ∀ z : Str, rstrip (rstrip z) = rstrip z := by
  intro z
  simp only [rstrip, List.reverse_reverse]
  rw [dropWhile_idem]

theorem rstrip_decomp : ∀ m : Str,
    m = rstrip m ++ (m.reverse.takeWhile Char.isWhitespace).reverse ∧
    ∀ c ∈ (m.reverse.takeWhile Char.isWhitespace).reverse, c.isWhitespace = true := by
  intro m
  constructor
  · conv_lhs => rw [← m.reverse_reverse]
    conv_lhs =>
      rw [show m.reverse = m.reverse.takeWhile Char.isWhitespace ++
            m.reverse.dropWhile Char.isWhitespace from
          (List.takeWhile_append_dropWhile Char.isWhitespace m.reverse).symm]
    rw [List.reverse_append]
    rfl
  · intro c hc
    rw [List.mem_reverse] at hc
    exact List.mem_takeWhile_imp hc

theorem dropWhile_fix_head (p : Char → Bool) (c : Char) (x : Str)
    (h : List.dropWhile p (c :: x) = c :: x) : p c = false := by
  by_cases hp : p c = true
  · rw [List.dropWhile_cons_of_pos hp] at h
    have := congrArg List.length h
    have h2 : (List.dropWhile p x).length ≤ x.length :=
      (List.dropWhile_sublist p).length_le
    simp only [List.length_cons] at this
    omega
  · cases h2 : p c
    · rfl
    · exact absurd h2 hp

theorem lstrip_rstrip (m : Str) (h : lstrip m = m) :
    lstrip (rstrip m) = rstrip m := by
  match hr : rstrip m with
  | [] => rfl
  | c :: t =>
    obtain ⟨hdec, -⟩ := rstrip_decomp m
    rw [hr] at hdec
    have hcw : Char.isWhitespace c = false := by
      apply dropWhile_fix_head Char.isWhitespace c
        (t ++ (m.reverse.takeWhile Char.isWhitespace).reverse)
      rw [show c :: (t ++ (m.reverse.takeWhile Char.isWhitespace).reverse) =
          (c :: t) ++ (m.reverse.takeWhile Char.isWhitespace).reverse from rfl]
      rw [← hdec]
      rw [show List.dropWhile Char.isWhitespace m = lstrip m from rfl, h]
    rw [show lstrip (c :: t) = List.dropWhile Char.isWhitespace (c :: t) from rfl]
    rw [List.dropWhile_cons_of_neg (by rw [hcw]; exact Bool.false_ne_true)]

theorem lstrip_idem : ∀ l : Str, lstrip (lstrip l) = lstrip l := by
  intro l
  exact dropWhile_idem Char.isWhitespace l

theorem pyStrip_idem : ∀ l : Str, pyStrip (pyStrip l) = pyStrip l := by
  intro l
  show rstrip (lstrip (rstrip (lstrip l))) = rstrip (lstrip l)
  rw [lstrip_rstrip (lstrip l) (lstrip_idem l), rstrip_idem]

theorem mem_lstrip {x : Char} {l : Str} (h : x ∈ lstrip l) : x ∈ l :=
  (List.dropWhile_sublist Char.isWhitespace).subset h

theorem mem_rstrip {x : Char} {l : Str} (h : x ∈ rstrip l) : x ∈ l := by
  rw [rstrip, List.mem_reverse] at h
  have h2 := (List.dropWhile_sublist Char.isWhitespace).subset h
  rw [List.mem_reverse] at h2
  exact h2

theorem mem_pyStrip {x : Char} {l : Str} (h : x ∈ pyStrip l) : x ∈ l :=
  mem_lstrip (mem_rstrip h)

theorem nq_quoteEscStr : ∀ s : Str, ∀ c ∈ quoteEscStr s, c ≠ '"' ∧ c ≠ '\'' := by
  intro s
  induction s with
  | nil => intro c hc; cases hc
  | cons a as ih =>
    intro c hc
    rw [show quoteEscStr (a :: as) = quoteEsc a ++ quoteEscStr as from rfl] at hc
    rcases List.mem_append.mp hc with h | h
    · by_cases h1 : a = '"'
      · subst h1
        rw [show quoteEsc '"' = "&quot;".toList from by decide] at h
        have hall : ∀ x ∈ "&quot;".toList, x ≠ '"' ∧ x ≠ '\'' := by decide
        exact hall c h
      · by_cases h2 : a = '\''
        · subst h2
          rw [show quoteEsc '\'' = "&#x27;".toList from by decide] at h
          have hall : ∀ x ∈ "&#x27;".toList, x ≠ '"' ∧ x ≠ '\'' := by decide
          exact hall c h
        · rw [show quoteEsc a = [a] from by simp [quoteEsc, h1, h2]] at h
          rw [List.mem_singleton] at h
          subst h
          exact ⟨h1, h2⟩
    · exact ih c h

theorem quoteEscStr_fix : ∀ t : Str, (∀ c ∈ t, c ≠ '"' ∧ c ≠ '\'') →
    quoteEscStr t = t := by
  intro t
  induction t with
  | nil => intro _; rfl
  | cons a as ih =>
    intro h
    obtain ⟨h1, h2⟩ := h a (List.mem_cons_self a as)
    rw [show quoteEscStr (a :: as) = quoteEsc a ++ quoteEscStr as from rfl]
    rw [show quoteEsc a = [a] from by simp [quoteEsc, h1, h2]]
    rw [ih (fun c hc => h c (List.mem_cons_of_mem a hc))]
    rfl

/- ====================================================================
   C2 : composer escaping
   ==================================================================== -/

/-- C2 counterexample: `clean_text_html` returns `"<b>&"` unchanged, so
the markup-reserved characters `<`, `>`, `&` appear UNescaped in text
that `build_html_document` interpolates into the document. -/
theorem clean_text_html_unescaped :
    clean_text_html "<b>&".toList = "<b>&".toList ∧
    '<' ∈ clean_text_html "<b>&".toList ∧
    '>' ∈ clean_text_html "<b>&".toList ∧
    '&' ∈ clean_text_html "<b>&".toList := by
  have h := clean_text_html_charQ "<b>&".toList
  rw [h]
  exact ⟨by decide, by decide, by decide, by decide⟩

/-- C2 (amended): `clean_text_html` escapes via `html.escape` and then
restores literal `<`, `>`, `&`, so the returned text is exactly the
input with only the quote characters escaped (`"` as `&quot;`, `'` as
`&#x27;`) and surrounding whitespace stripped; in particular the result
never contains a raw quote character, but HTML's `&`, `<`, `>` pass
through unescaped. -/
theorem clean_text_html_only_quotes : ∀ s : Str,
    clean_text_html s = pyStrip (quoteEscStr s) ∧
    (∀ c ∈ clean_text_html s, c ≠ '"' ∧ c ≠ '\'') := by
  intro s
  refine ⟨clean_text_html_charQ s, ?_⟩
  intro c hc
  rw [clean_text_html_charQ s] at hc
  exact nq_quoteEscStr s c (mem_pyStrip hc)

/-- Witness for C2 (amended) at a concrete input containing a quote. -/
theorem clean_text_html_only_quotes_witness :
    'x' ∈ clean_text_html "x\"".toList ∧ 'x' ≠ '"' ∧ 'x' ≠ '\'' :=
  ⟨by rw [clean_text_html_charQ]; decide,
    (clean_text_html_only_quotes "x\"".toList).2 'x'
      (by rw [clean_text_html_charQ]; decide)⟩

/- ====================================================================
   C8 : composer escaping applied exactly once
   ==================================================================== -/

/-- C8: `clean_text_html` is idempotent — a second pass never
double-escapes: the first pass leaves no raw quote character, so the
second pass's escape-then-unescape chain is the identity up to the
(idempotent) strip. -/
theorem clean_text_html_idempotent : ∀ s : Str,
    clean_text_html (clean_text_html s) = clean_text_html s := by
  intro s
  rw [clean_text_html_charQ s, clean_text_html_charQ (pyStrip (quoteEscStr s))]
  rw [quoteEscStr_fix (pyStrip (quoteEscStr s))
    (fun c hc => nq_quoteEscStr s c (mem_pyStrip hc))]
  exact pyStrip_idem (quoteEscStr s)

/- ====================================================================
   C1 : idempotence of the repair pipeline
   ==================================================================== -/

theorem rstrip_cons (c : Char) (r : Str) :
    rstrip (c :: r) =
      if rstrip r = [] then (if c.isWhitespace then [] else [c])
      else c :: rstrip r := by
  have h1 : (c :: r).reverse = r.reverse ++ [c] := by simp
  rw [rstrip, h1, List.dropWhile_append]
  by_cases h2 : (r.reverse.dropWhile Char.isWhitespace) = []
  · have h3 : rstrip r = [] := by rw [rstrip, h2]; rfl
    rw [if_pos (by rw [h2]; rfl), if_pos h3]
    by_cases h4 : c.isWhitespace = true
    · rw [if_pos h4]
      rw [List.dropWhile_cons_of_pos h4]
      rfl
    · rw [if_neg h4]
      rw [List.dropWhile_cons_of_neg h4]
      rfl
  · have h3 : rstrip r ≠ [] := by
      rw [rstrip]
      intro hx
      exact h2 (by simpa using congrArg List.reverse hx)
    rw [if_neg (by simpa [List.isEmpty_iff] using h2), if_neg h3]
    rw [List.reverse_append]
    rfl

theorem rstrip_eq_nil_iff (r : Str) :
    rstrip r = [] ↔ ∀ c ∈ r, c.isWhitespace = true := by
  rw [rstrip]
  constructor
  · intro h c hc
    have h2 : r.reverse.dropWhile Char.isWhitespace = [] := by
      simpa using congrArg List.reverse h
    rw [List.dropWhile_eq_nil_iff] at h2
    exact h2 c (List.mem_reverse.mpr hc)
  · intro h
    have h2 : r.reverse.dropWhile Char.isWhitespace = [] := by
      rw [List.dropWhile_eq_nil_iff]
      intro x hx
      exact h x (List.mem_reverse.mp hx)
    rw [h2]
    rfl

theorem ws_cases (c : Char) (h : c.isWhitespace = true) :
    c = ' ' ∨ c = '\t' ∨ c = '\r' ∨ c = '\n' := by
  simp only [Char.isWhitespace, Bool.or_eq_true, decide_eq_true_eq] at h
  tauto

theorem ws_not_digit (c : Char) (h : c.isWhitespace = true) : c.isDigit = false := by
  rcases ws_cases c h with h2 | h2 | h2 | h2 <;> subst h2 <;> decide

theorem ws_ne_dot (c : Char) (h : c.isWhitespace = true) : (c == '.') = false := by
  rcases ws_cases c h with h2 | h2 | h2 | h2 <;> subst h2 <;> decide

theorem ws_ne_rpar (c : Char) (h : c.isWhitespace = true) : (c == ')') = false := by
  rcases ws_cases c h with h2 | h2 | h2 | h2 <;> subst h2 <;> decide

theorem ws_not_AD (c : Char) (h : c.isWhitespace = true) :
    (c == 'A' || c == 'B' || c == 'C' || c == 'D') = false := by
  rcases ws_cases c h with h2 | h2 | h2 | h2 <;> subst h2 <;> decide

theorem digit_not_AD (c : Char) (h : c.isDigit = true) :
    (c == 'A' || c == 'B' || c == 'C' || c == 'D') = false := by
  simp only [Char.isDigit, Bool.and_eq_true, decide_eq_true_eq] at h
  have h1 : c ≠ 'A' := by intro hx; subst hx; revert h; decide
  have h2 : c ≠ 'B' := by intro hx; subst hx; revert h; decide
  have h3 : c ≠ 'C' := by intro hx; subst hx; revert h; decide
  have h4 : c ≠ 'D' := by intro hx; subst hx; revert h; decide
  simp [h1, h2, h3, h4]

theorem AD_not_digit (c : Char)
    (h : (c == 'A' || c == 'B' || c == 'C' || c == 'D') = true) :
    c.isDigit = false := by
  simp only [Bool.or_eq_true, beq_iff_eq] at h
  rcases h with ((h | h) | h) | h <;> subst h <;> decide

theorem ndGo_allws (r : Str) (h : ∀ c ∈ r, c.isWhitespace = true) :
    ndGo r = false := by
  cases r with
  | nil => rfl
  | cons c cs =>
    have hc := h c (List.mem_cons_self c cs)
    rw [show ndGo (c :: cs) = if c.isDigit then ndGo cs else c == '.' from rfl]
    rw [if_neg (by rw [ws_not_digit c hc]; exact Bool.false_ne_true)]
    exact ws_ne_dot c hc

theorem ndGo_rstrip : ∀ z : Str, ndGo (rstrip z) = ndGo z := by
  intro z
  induction z with
  | nil => rfl
  | cons c r ih =>
    rw [rstrip_cons]
    by_cases h : rstrip r = []
    · rw [if_pos h]
      have hall := (rstrip_eq_nil_iff r).mp h
      by_cases hws : c.isWhitespace = true
      · rw [if_pos hws]
        rw [show ndGo [] = false from rfl]
        rw [show ndGo (c :: r) = if c.isDigit then ndGo r else c == '.' from rfl]
        rw [if_neg (by rw [ws_not_digit c hws]; exact Bool.false_ne_true)]
        exact (ws_ne_dot c hws).symm
      · rw [if_neg hws]
        rw [show ndGo [c] = if c.isDigit then ndGo [] else c == '.' from rfl]
        rw [show ndGo (c :: r) = if c.isDigit then ndGo r else c == '.' from rfl]
        by_cases hd : c.isDigit = true
        · rw [if_pos hd, if_pos hd]
          rw [show ndGo [] = false from rfl, ndGo_allws r hall]
        · rw [if_neg hd, if_neg hd]
    · rw [if_neg h]
      rw [show ndGo (c :: rstrip r) = if c.isDigit then ndGo (rstrip r) else c == '.' from rfl]
      rw [show ndGo (c :: r) = if c.isDigit then ndGo r else c == '.' from rfl]
      by_cases hd : c.isDigit = true
      · rw [if_pos hd, if_pos hd, ih]
      · rw [if_neg hd, if_neg hd]

theorem ndB_rstrip : ∀ z : Str, ndB (rstrip z) = ndB z := by
  intro z
  cases z with
  | nil => rfl
  | cons c r =>
    rw [rstrip_cons]
    by_cases h : rstrip r = []
    · rw [if_pos h]
      have hall := (rstrip_eq_nil_iff r).mp h
      by_cases hws : c.isWhitespace = true
      · rw [if_pos hws]
        rw [show ndB [] = false from rfl]
        rw [show ndB (c :: r) = (c.isDigit && ndGo r) from rfl]
        rw [ws_not_digit c hws]
        rfl
      · rw [if_neg hws]
        rw [show ndB [c] = (c.isDigit && ndGo []) from rfl]
        rw [show ndB (c :: r) = (c.isDigit && ndGo r) from rfl]
        rw [ndGo_allws r hall]
        rfl
    · rw [if_neg h]
      rw [show ndB (c :: rstrip r) = (c.isDigit && ndGo (rstrip r)) from rfl]
      rw [show ndB (c :: r) = (c.isDigit && ndGo r) from rfl]
      rw [ndGo_rstrip r]

theorem optB_rstrip : ∀ z : Str, optB (rstrip z) = optB z := by
  intro z
  match z with
  | [] => rfl
  | [a] =>
    rw [rstrip_cons]
    by_cases h : rstrip ([] : Str) = []
    · rw [if_pos h]
      by_cases hws : a.isWhitespace = true
      · rw [if_pos hws]; rfl
      · rw [if_neg hws]
    · exact absurd rfl h
  | a :: b :: t =>
    rw [rstrip_cons]
    by_cases h : rstrip (b :: t) = []
    · rw [if_pos h]
      have hall := (rstrip_eq_nil_iff (b :: t)).mp h
      have hbw := hall b (List.mem_cons_self b t)
      have hopt : optB (a :: b :: t) = false := by
        rw [show optB (a :: b :: t) =
            ((a == 'A' || a == 'B' || a == 'C' || a == 'D') && b == ')') from rfl]
        rw [ws_ne_rpar b hbw]
        simp
      rw [hopt]
      by_cases hws : a.isWhitespace = true
      · rw [if_pos hws]; rfl
      · rw [if_neg hws]; rfl
    · rw [if_neg h]
      rw [rstrip_cons]
      by_cases h2 : rstrip t = []
      · rw [if_pos h2]
        by_cases hbw : b.isWhitespace = true
        · rw [if_pos hbw]
          exact absurd (by rw [rstrip_cons, if_pos h2, if_pos hbw]) h
        · rw [if_neg hbw]
          rfl
      · rw [if_neg h2]
        rfl

theorem ndB_pyStrip (p : Str) : ndB (pyStrip p) = ndB (lstrip p) := ndB_rstrip _

theorem optB_pyStrip (p : Str) : optB (pyStrip p) = optB (lstrip p) := optB_rstrip _

/-- The firing condition of `fmomStep`: the stripped line starts with
`)` and has length greater than one. -/
def trigB (l : Str) : Bool :=
  match pyStrip l with
  | ')' :: _ :: _ => true
  | _ => false

/-- The same test read off the left-stripped string: head `)` and a
non-whitespace character somewhere after it. -/
def mra (s : Str) : Bool :=
  match s with
  | ')' :: r => r.any (fun c => !c.isWhitespace)
  | _ => false

theorem mra_rpar (r : Str) : mra (')' :: r) = r.any (fun c => !c.isWhitespace) := rfl

theorem mra_ne (c : Char) (r : Str) (h : c ≠ ')') : mra (c :: r) = false := by
  unfold mra
  split
  · rename_i heq
    injection heq with h1 h2
    exact absurd h1 h
  · rfl

theorem trigB_of_strip {l : Str} {c : Char} {cs : Str}
    (h : pyStrip l = ')' :: c :: cs) : trigB l = true := by
  unfold trigB
  rw [h]
  rfl

theorem any_nonws_false_of_allws (r : Str)
    (hall : ∀ c ∈ r, c.isWhitespace = true) :
    r.any (fun c => !c.isWhitespace) = false := by
  rw [List.any_eq_false]
  intro x hx
  rw [hall x hx]
  simp

theorem any_nonws_of_rstrip_ne (r : Str) (hr : rstrip r ≠ []) :
    r.any (fun c => !c.isWhitespace) = true := by
  cases hA : r.any (fun c => !c.isWhitespace)
  · exfalso
    apply hr
    rw [rstrip_eq_nil_iff]
    intro x hx
    rw [List.any_eq_false] at hA
    have h2 := hA x hx
    simpa using h2
  · rfl

theorem trigB_lstrip (l : Str) : trigB l = mra (lstrip l) := by
  unfold trigB
  rw [show pyStrip l = rstrip (lstrip l) from rfl]
  match hm : lstrip l with
  | [] => rfl
  | c :: r =>
    rw [rstrip_cons]
    by_cases hc : c = ')'
    · subst hc
      rw [mra_rpar]
      by_cases hr : rstrip r = []
      · have hpw : ¬ (')' : Char).isWhitespace = true := by decide
        rw [if_pos hr, if_neg hpw,
            any_nonws_false_of_allws r ((rstrip_eq_nil_iff r).mp hr)]
        rfl
      · rw [if_neg hr]
        rw [any_nonws_of_rstrip_ne r hr]
        match hr2 : rstrip r with
        | [] => exact absurd hr2 hr
        | d :: t => rfl
    · rw [mra_ne c r hc]
      by_cases hr : rstrip r = []
      · rw [if_pos hr]
        by_cases hws : c.isWhitespace = true
        · rw [if_pos hws]
        · rw [if_neg hws]
          split
          · rename_i heq
            injection heq with h1 h2
            exact absurd h1 hc
          · rfl
      · rw [if_neg hr]
        split
        · rename_i heq
          injection heq with h1 h2
          exact absurd h1 hc
        · rfl

theorem lstrip_pyStrip (l : Str) : lstrip (pyStrip l) = pyStrip l :=
  lstrip_rstrip (lstrip l) (lstrip_idem l)

theorem rstrip_pyStrip (l : Str) : rstrip (pyStrip l) = pyStrip l := rstrip_idem _

theorem pyStrip_cons_of (X : Char) (hX : X.isWhitespace = false) (m : Str)
    (hl : lstrip m = m) (hr : rstrip m = m) (hne : m ≠ []) :
    pyStrip (X :: m) = X :: m := by
  rw [pyStrip]
  have h1 : lstrip (X :: m) = X :: m := by
    rw [lstrip, List.dropWhile_cons_of_neg (by rw [hX]; exact Bool.false_ne_true)]
  rw [show lstrip (X :: m) = X :: m from h1]
  rw [rstrip_cons, hr, if_neg hne]

theorem letter_cases (cnt : Nat) (h : cnt < 4) :
    Char.ofNat (65 + cnt) = 'A' ∨ Char.ofNat (65 + cnt) = 'B' ∨
    Char.ofNat (65 + cnt) = 'C' ∨ Char.ofNat (65 + cnt) = 'D' := by
  interval_cases cnt <;> decide

theorem letter_not_ws (cnt : Nat) (h : cnt < 4) :
    (Char.ofNat (65 + cnt)).isWhitespace = false := by
  rcases letter_cases cnt h with h2 | h2 | h2 | h2 <;> rw [h2] <;> decide

theorem letter_ne_rpar (cnt : Nat) (h : cnt < 4) : Char.ofNat (65 + cnt) ≠ ')' := by
  rcases letter_cases cnt h with h2 | h2 | h2 | h2 <;> rw [h2] <;> decide

theorem letter_ne_nl (cnt : Nat) (h : cnt < 4) : Char.ofNat (65 + cnt) ≠ '\n' := by
  rcases letter_cases cnt h with h2 | h2 | h2 | h2 <;> rw [h2] <;> decide

theorem fmomStep_fire {accRev : List Str} {l : Str} {c : Char} {cs : Str}
    (h : pyStrip l = ')' :: c :: cs) :
    fmomStep accRev l =
      if countBack accRev < 4 then
        Char.ofNat (65 + countBack accRev) :: pyStrip l
      else l := by
  unfold fmomStep
  rw [h]
  rfl

theorem fmomStep_self {accRev : List Str} {l : Str} (h : trigB l = false) :
    fmomStep accRev l = l := by
  unfold fmomStep
  split
  · rename_i c cs hm
    rw [trigB_of_strip hm] at h
    cases h
  · rfl

theorem trigB_shape {l : Str} (h : trigB l = true) :
    ∃ c cs, pyStrip l = ')' :: c :: cs := by
  unfold trigB at h
  split at h
  · rename_i c cs hm
    exact ⟨c, cs, hm⟩
  · cases h

theorem fmomStep_change {accRev : List Str} {l : Str} {c : Char} {cs : Str}
    (h : pyStrip l = ')' :: c :: cs) (hcnt : countBack accRev < 4) :
    fmomStep accRev l ≠ l := by
  rw [fmomStep_fire h, if_pos hcnt]
  intro heq
  have hXw : (Char.ofNat (65 + countBack accRev)).isWhitespace = false :=
    letter_not_ws _ hcnt
  have hfix : pyStrip (Char.ofNat (65 + countBack accRev) :: pyStrip l) =
      Char.ofNat (65 + countBack accRev) :: pyStrip l :=
    pyStrip_cons_of _ hXw (pyStrip l) (lstrip_pyStrip l) (rstrip_pyStrip l)
      (by rw [h]; exact List.cons_ne_nil _ _)
  have h2 : pyStrip l = Char.ofNat (65 + countBack accRev) :: pyStrip l := by
    conv_lhs => rw [← heq]
    exact hfix
  have h3 := congrArg List.length h2
  simp at h3

theorem fmomStep_self_iff (accRev : List Str) (l : Str) :
    fmomStep accRev l = l ↔ ¬(trigB l = true ∧ countBack accRev < 4) := by
  constructor
  · intro h hcontra
    obtain ⟨ht, hcnt⟩ := hcontra
    obtain ⟨c, cs, hm⟩ := trigB_shape ht
    exact fmomStep_change hm hcnt h
  · intro h
    by_cases ht : trigB l = true
    · have hcnt : ¬ countBack accRev < 4 := fun hc => h ⟨ht, hc⟩
      obtain ⟨c, cs, hm⟩ := trigB_shape ht
      rw [fmomStep_fire hm, if_neg hcnt]
    · have ht2 : trigB l = false := by
        cases h2 : trigB l
        · rfl
        · exact absurd h2 ht
      exact fmomStep_self ht2

/-- The per-line data that `fix_missing_option_markers` inspects: firing
condition and the two backward-scan classifiers. -/
def lineRel (a b : Str) : Prop :=
  trigB a = trigB b ∧ ndB (pyStrip a) = ndB (pyStrip b) ∧
    optB (pyStrip a) = optB (pyStrip b)

theorem lineRel_refl (a : Str) : lineRel a a := ⟨rfl, rfl, rfl⟩

theorem countBack_congr : ∀ {acc acc' : List Str},
    List.Forall₂ lineRel acc acc' → countBack acc = countBack acc' := by
  intro acc acc' h
  induction h with
  | nil => rfl
  | cons hr _ ih =>
    obtain ⟨-, hnd, hopt⟩ := hr
    simp only [countBack]
    rw [hnd, hopt, ih]

/-- No line of `ls` fires against the (reversed) already-corrected
prefix `accRev` extended with the lines before it. -/
def fixedFrom : List Str → List Str → Prop
  | _, [] => True
  | accRev, l :: ls => fmomStep accRev l = l ∧ fixedFrom (l :: accRev) ls

theorem fixedFrom_proc_eq : ∀ (ls accRev : List Str),
    fixedFrom accRev ls → fmomProc accRev ls = ls := by
  intro ls
  induction ls with
  | nil => intro accRev _; rfl
  | cons l ls ih =>
    intro accRev h
    obtain ⟨h1, h2⟩ := h
    simp only [fmomProc]
    rw [h1]
    rw [ih _ h2]

theorem proc_fixedFrom : ∀ (ls accRev : List Str),
    fixedFrom accRev (fmomProc accRev ls) := by
  intro ls
  induction ls with
  | nil => intro accRev; trivial
  | cons l ls ih =>
    intro accRev
    simp only [fmomProc]
    refine ⟨?_, ih (fmomStep accRev l :: accRev)⟩
    by_cases ht : trigB l = true ∧ countBack accRev < 4
    · obtain ⟨c, cs, hm⟩ := trigB_shape ht.1
      rw [fmomStep_fire hm, if_pos ht.2]
      apply fmomStep_self
      have hfix := pyStrip_cons_of (Char.ofNat (65 + countBack accRev))
        (letter_not_ws _ ht.2) (pyStrip l) (lstrip_pyStrip l) (rstrip_pyStrip l)
        (by rw [hm]; exact List.cons_ne_nil _ _)
      unfold trigB
      rw [hfix]
      split
      · rename_i x xs heq
        injection heq with hX1 _
        exact absurd hX1 (letter_ne_rpar _ ht.2)
      · rfl
    · have h1 : fmomStep accRev l = l := (fmomStep_self_iff accRev l).mpr ht
      rw [h1]
      exact h1

theorem fixedFrom_congr : ∀ {ls ls' : List Str}, List.Forall₂ lineRel ls ls' →
    ∀ {acc acc' : List Str}, List.Forall₂ lineRel acc acc' →
    fixedFrom acc ls → fixedFrom acc' ls' := by
  intro ls ls' h
  induction h with
  | nil => intro acc acc' _ _; trivial
  | cons hr hrest ih =>
    rename_i l l' lt lt'
    intro acc acc' hacc hfix
    obtain ⟨h1, h2⟩ := hfix
    refine ⟨?_, ih (List.Forall₂.cons hr hacc) h2⟩
    rw [fmomStep_self_iff] at h1 ⊢
    rintro ⟨ht', hcnt'⟩
    apply h1
    constructor
    · rw [hr.1]
      exact ht'
    · rw [countBack_congr hacc]
      exact hcnt'

theorem w1_cons (c : Char) (cs : Str) : sub_number_space (c :: cs) =
    if c.isDigit && ((cs.dropWhile Char.isDigit).head? == some '.')
        && !headWs (cs.dropWhile Char.isDigit).tail then
      (c :: cs.takeWhile Char.isDigit) ++ '.' :: ' ' ::
        sub_number_space (cs.dropWhile Char.isDigit).tail
    else c :: sub_number_space cs := by
  conv_lhs => rw [sub_number_space]

theorem w1_nil : sub_number_space [] = [] := by
  conv_lhs => rw [sub_number_space]

theorem w2_cons (c : Char) (cs : Str) : sub_option_space (c :: cs) =
    if (c == 'A' || c == 'B' || c == 'C' || c == 'D')
        && (cs.head? == some ')') && !headWs cs.tail then
      c :: ')' :: ' ' :: sub_option_space cs.tail
    else c :: sub_option_space cs := by
  conv_lhs => rw [sub_option_space]

theorem w2_nil : sub_option_space [] = [] := by
  conv_lhs => rw [sub_option_space]

/-- Insertion relation for the whitespace-normalization substitutions:
`SpIns a b` says `b` is `a` with single spaces inserted, each
immediately after a `.` or a `)`. -/
inductive SpIns : Str → Str → Prop
  | nil : SpIns [] []
  | cons (c : Char) {l l' : Str} : SpIns l l' → SpIns (c :: l) (c :: l')
  | dot {l l' : Str} : SpIns l l' → SpIns ('.' :: l) ('.' :: ' ' :: l')
  | par {l l' : Str} : SpIns l l' → SpIns (')' :: l) (')' :: ' ' :: l')

theorem spins_refl : ∀ l : Str, SpIns l l := by
  intro l
  induction l with
  | nil => exact SpIns.nil
  | cons c cs ih => exact SpIns.cons c ih

theorem spins_append : ∀ {a a' : Str}, SpIns a a' → ∀ {b b' : Str}, SpIns b b' →
    SpIns (a ++ b) (a' ++ b') := by
  intro a a' h
  induction h with
  | nil => intro b b' hb; exact hb
  | cons c h2 ih => intro b b' hb; exact SpIns.cons c (ih hb)
  | dot h2 ih => intro b b' hb; exact SpIns.dot (ih hb)
  | par h2 ih => intro b b' hb; exact SpIns.par (ih hb)

theorem head_eq_of_head? {cs : Str} {a : Char} (h : cs.head? = some a) :
    cs = a :: cs.tail := by
  cases cs with
  | nil => cases h
  | cons x t =>
    simp only [List.head?_cons, Option.some_inj] at h
    subst h
    rfl

theorem spins_w1_aux : ∀ (n : Nat) (s : Str), s.length ≤ n →
    SpIns s (sub_number_space s) := by
  intro n
  induction n with
  | zero =>
    intro s h
    have h2 : s = [] := List.eq_nil_of_length_eq_zero (Nat.le_zero.mp h)
    subst h2
    rw [w1_nil]
    exact SpIns.nil
  | succ n ih =>
    intro s hlen
    match s with
    | [] => rw [w1_nil]; exact SpIns.nil
    | c :: cs =>
      rw [w1_cons]
      by_cases hcond : (c.isDigit
          && ((cs.dropWhile Char.isDigit).head? == some '.')
          && !headWs (cs.dropWhile Char.isDigit).tail) = true
      · rw [if_pos hcond]
        have hhd : (cs.dropWhile Char.isDigit).head? = some '.' := by
          simp only [Bool.and_eq_true, beq_iff_eq] at hcond
          exact hcond.1.2
        have hd := head_eq_of_head? hhd
        have hs : c :: cs = (c :: cs.takeWhile Char.isDigit) ++
            '.' :: (cs.dropWhile Char.isDigit).tail := by
          conv_lhs =>
            rw [show cs = cs.takeWhile Char.isDigit ++ cs.dropWhile Char.isDigit
                from (List.takeWhile_append_dropWhile Char.isDigit cs).symm]
          rw [show cs.dropWhile Char.isDigit =
              '.' :: (cs.dropWhile Char.isDigit).tail from hd]
          rfl
        rw [hs]
        apply spins_append (spins_refl (c :: cs.takeWhile Char.isDigit))
        apply SpIns.dot
        apply ih
        have h1 : (cs.dropWhile Char.isDigit).length ≤ cs.length :=
          (List.dropWhile_sublist Char.isDigit).length_le
        have h2 : cs.length + 1 ≤ n + 1 := by simpa using hlen
        simp only [List.length_tail]
        omega
      · rw [if_neg hcond]
        apply SpIns.cons
        apply ih
        have h2 : cs.length + 1 ≤ n + 1 := by simpa using hlen
        omega

theorem spins_w1 (s : Str) : SpIns s (sub_number_space s) :=
  spins_w1_aux s.length s (Nat.le_refl _)

theorem spins_w2_aux : ∀ (n : Nat) (s : Str), s.length ≤ n →
    SpIns s (sub_option_space s) := by
  intro n
  induction n with
  | zero =>
    intro s h
    have h2 : s = [] := List.eq_nil_of_length_eq_zero (Nat.le_zero.mp h)
    subst h2
    rw [w2_nil]
    exact SpIns.nil
  | succ n ih =>
    intro s hlen
    match s with
    | [] => rw [w2_nil]; exact SpIns.nil
    | c :: cs =>
      rw [w2_cons]
      by_cases hcond : ((c == 'A' || c == 'B' || c == 'C' || c == 'D')
          && (cs.head? == some ')') && !headWs cs.tail) = true
      · rw [if_pos hcond]
        have hhd : cs.head? = some ')' := by
          simp only [Bool.and_eq_true, beq_iff_eq] at hcond
          exact hcond.1.2
        have hd := head_eq_of_head? hhd
        rw [show c :: cs = c :: ')' :: cs.tail from by rw [← hd]]
        apply SpIns.cons
        apply SpIns.par
        apply ih
        have h2 : cs.length + 1 ≤ n + 1 := by simpa using hlen
        simp only [List.length_tail]
        omega
      · rw [if_neg hcond]
        apply SpIns.cons
        apply ih
        have h2 : cs.length + 1 ≤ n + 1 := by simpa using hlen
        omega

theorem spins_w2 (s : Str) : SpIns s (sub_option_space s) :=
  spins_w2_aux s.length s (Nat.le_refl _)

theorem spins_any : ∀ {a b : Str}, SpIns a b →
    a.any (fun c => !c.isWhitespace) = b.any (fun c => !c.isWhitespace) := by
  intro a b h
  induction h with
  | nil => rfl
  | cons c h2 ih => simp only [List.any_cons, ih]
  | dot h2 ih =>
    simp only [List.any_cons]
    rw [show ((!('.' : Char).isWhitespace) = true) from by decide]
    simp
  | par h2 ih =>
    simp only [List.any_cons]
    rw [show ((!(')' : Char).isWhitespace) = true) from by decide]
    simp

theorem spins_lstrip : ∀ {a b : Str}, SpIns a b → SpIns (lstrip a) (lstrip b) := by
  intro a b h
  induction h with
  | nil => exact SpIns.nil
  | cons c h2 ih =>
    by_cases hws : c.isWhitespace = true
    · have e1 : ∀ t : Str, lstrip (c :: t) = lstrip t := fun t => by
        simp only [lstrip]
        exact List.dropWhile_cons_of_pos hws
      rw [e1, e1]
      exact ih
    · have e2 : ∀ t : Str, lstrip (c :: t) = c :: t := fun t => by
        simp only [lstrip]
        exact List.dropWhile_cons_of_neg hws
      rw [e2, e2]
      exact SpIns.cons c h2
  | dot h2 ih =>
    have hnw : ¬ ('.' : Char).isWhitespace = true := by decide
    rw [show ∀ t : Str, lstrip ('.' :: t) = '.' :: t from fun t => by
        rw [lstrip, List.dropWhile_cons_of_neg hnw]]
    rw [show ∀ t : Str, lstrip ('.' :: t) = '.' :: t from fun t => by
        rw [lstrip, List.dropWhile_cons_of_neg hnw]]
    exact SpIns.dot h2
  | par h2 ih =>
    have hnw : ¬ (')' : Char).isWhitespace = true := by decide
    rw [show ∀ t : Str, lstrip (')' :: t) = ')' :: t from fun t => by
        rw [lstrip, List.dropWhile_cons_of_neg hnw]]
    rw [show ∀ t : Str, lstrip (')' :: t) = ')' :: t from fun t => by
        rw [lstrip, List.dropWhile_cons_of_neg hnw]]
    exact SpIns.par h2

theorem spins_ndGo : ∀ {a b : Str}, SpIns a b → ndGo a = ndGo b := by
  intro a b h
  induction h with
  | nil => rfl
  | cons c h2 ih =>
    rw [show ∀ t : Str, ndGo (c :: t) = if c.isDigit then ndGo t else c == '.'
        from fun t => rfl]
    rw [show ∀ t : Str, ndGo (c :: t) = if c.isDigit then ndGo t else c == '.'
        from fun t => rfl]
    by_cases hd : c.isDigit = true
    · rw [if_pos hd, if_pos hd, ih]
    · rw [if_neg hd, if_neg hd]
  | dot h2 ih => rfl
  | par h2 ih => rfl

theorem spins_ndB : ∀ {a b : Str}, SpIns a b → ndB a = ndB b := by
  intro a b h
  cases h with
  | nil => rfl
  | cons c h2 =>
    rw [show ∀ t : Str, ndB (c :: t) = (c.isDigit && ndGo t) from fun t => rfl]
    rw [show ∀ t : Str, ndB (c :: t) = (c.isDigit && ndGo t) from fun t => rfl]
    rw [spins_ndGo h2]
  | dot h2 =>
    rw [show ∀ t : Str, ndB ('.' :: t) = (('.' : Char).isDigit && ndGo t)
        from fun t => rfl]
    rw [show ∀ t : Str, ndB ('.' :: t) = (('.' : Char).isDigit && ndGo t)
        from fun t => rfl]
    rw [show (('.' : Char).isDigit) = false from by decide]
    rfl
  | par h2 =>
    rw [show ∀ t : Str, ndB (')' :: t) = ((')' : Char).isDigit && ndGo t)
        from fun t => rfl]
    rw [show ∀ t : Str, ndB (')' :: t) = ((')' : Char).isDigit && ndGo t)
        from fun t => rfl]
    rw [show ((')' : Char).isDigit) = false from by decide]
    rfl

theorem optB_head_false (c : Char)
    (hc : (c == 'A' || c == 'B' || c == 'C' || c == 'D') = false) (t : Str) :
    optB (c :: t) = false := by
  cases t with
  | nil => rfl
  | cons b t2 =>
    rw [show optB (c :: b :: t2) =
        ((c == 'A' || c == 'B' || c == 'C' || c == 'D') && b == ')') from rfl]
    rw [hc]
    rfl

theorem spins_optB : ∀ {a b : Str}, SpIns a b → optB a = optB b := by
  intro a b h
  cases h with
  | nil => rfl
  | cons c h2 =>
    rename_i l l'
    cases h2 with
    | nil => rfl
    | cons d h3 => rfl
    | dot h3 =>
      rw [show optB (c :: '.' :: _) =
          ((c == 'A' || c == 'B' || c == 'C' || c == 'D') && '.' == ')') from rfl]
      rw [show optB (c :: '.' :: ' ' :: _) =
          ((c == 'A' || c == 'B' || c == 'C' || c == 'D') && '.' == ')') from rfl]
    | par h3 =>
      rw [show optB (c :: ')' :: _) =
          ((c == 'A' || c == 'B' || c == 'C' || c == 'D') && ')' == ')') from rfl]
      rw [show optB (c :: ')' :: ' ' :: _) =
          ((c == 'A' || c == 'B' || c == 'C' || c == 'D') && ')' == ')') from rfl]
  | dot h2 =>
    rw [optB_head_false '.' (by decide), optB_head_false '.' (by decide)]
  | par h2 =>
    rw [optB_head_false ')' (by decide), optB_head_false ')' (by decide)]

theorem spins_trigB : ∀ {a b : Str}, SpIns a b → trigB a = trigB b := by
  intro a b h
  rw [trigB_lstrip, trigB_lstrip]
  have h2 := spins_lstrip h
  generalize hLa : lstrip a = la at h2 ⊢
  generalize hLb : lstrip b = lb at h2 ⊢
  cases h2 with
  | nil => rfl
  | cons c h3 =>
    by_cases hc : c = ')'
    · subst hc
      rw [mra_rpar, mra_rpar, spins_any h3]
    · rw [mra_ne c _ hc, mra_ne c _ hc]
  | dot h3 =>
    rw [mra_ne '.' _ (by decide), mra_ne '.' _ (by decide)]
  | par h3 =>
    rw [mra_rpar, mra_rpar]
    rw [List.any_cons]
    rw [show ((!(' ' : Char).isWhitespace) = false) from by decide]
    rw [Bool.false_or]
    exact spins_any h3

theorem rel_of_spins {a b : Str} (h : SpIns a b) : lineRel a b := by
  refine ⟨spins_trigB h, ?_, ?_⟩
  · rw [ndB_pyStrip, ndB_pyStrip]
    exact spins_ndB (spins_lstrip h)
  · rw [optB_pyStrip, optB_pyStrip]
    exact spins_optB (spins_lstrip h)

theorem spins_eq_or_mem : ∀ {a b : Str}, SpIns a b →
    a = b ∨ '.' ∈ b ∨ ')' ∈ b := by
  intro a b h
  induction h with
  | nil => exact Or.inl rfl
  | cons c h2 ih =>
    rcases ih with h3 | h3 | h3
    · exact Or.inl (by rw [h3])
    · exact Or.inr (Or.inl (List.mem_cons_of_mem c h3))
    · exact Or.inr (Or.inr (List.mem_cons_of_mem c h3))
  | dot h2 ih => exact Or.inr (Or.inl (List.mem_cons_self _ _))
  | par h2 ih => exact Or.inr (Or.inr (List.mem_cons_self _ _))

theorem split_cons_ne {sep c : Char} {l : Str} {h1 : Str} {t1 : List Str}
    (hc : ¬ c = sep) (hs : splitCh sep l = h1 :: t1) :
    splitCh sep (c :: l) = (c :: h1) :: t1 := by
  simp only [splitCh, if_neg hc]
  rw [hs]

theorem split_cons_sep {sep : Char} (l : Str) :
    splitCh sep (sep :: l) = [] :: splitCh sep l := by
  simp [splitCh]

theorem spins_split : ∀ {x y : Str}, SpIns x y →
    List.Forall₂ SpIns (splitCh '\n' x) (splitCh '\n' y) := by
  intro x y h
  induction h with
  | nil => exact List.Forall₂.cons SpIns.nil List.Forall₂.nil
  | cons c h2 ih =>
    rename_i l l'
    by_cases hc : c = '\n'
    · subst hc
      rw [split_cons_sep l, split_cons_sep l']
      exact List.Forall₂.cons SpIns.nil ih
    · match hs : splitCh '\n' l, hs' : splitCh '\n' l' with
      | [], _ => exact absurd hs (splitCh_ne_nil _ _)
      | _ :: _, [] => exact absurd hs' (splitCh_ne_nil _ _)
      | h1 :: t1, h1' :: t1' =>
        rw [split_cons_ne hc hs, split_cons_ne hc hs']
        rw [hs, hs'] at ih
        cases ih with
        | cons hr hrest => exact List.Forall₂.cons (SpIns.cons c hr) hrest
  | dot h2 ih =>
    rename_i l l'
    match hs : splitCh '\n' l, hs' : splitCh '\n' l' with
    | [], _ => exact absurd hs (splitCh_ne_nil _ _)
    | _ :: _, [] => exact absurd hs' (splitCh_ne_nil _ _)
    | h1 :: t1, h1' :: t1' =>
      rw [split_cons_ne (by decide) hs,
          split_cons_ne (by decide) (split_cons_ne (by decide) hs')]
      rw [hs, hs'] at ih
      cases ih with
      | cons hr hrest => exact List.Forall₂.cons (SpIns.dot hr) hrest
  | par h2 ih =>
    rename_i l l'
    match hs : splitCh '\n' l, hs' : splitCh '\n' l' with
    | [], _ => exact absurd hs (splitCh_ne_nil _ _)
    | _ :: _, [] => exact absurd hs' (splitCh_ne_nil _ _)
    | h1 :: t1, h1' :: t1' =>
      rw [split_cons_ne (by decide) hs,
          split_cons_ne (by decide) (split_cons_ne (by decide) hs')]
      rw [hs, hs'] at ih
      cases ih with
      | cons hr hrest => exact List.Forall₂.cons (SpIns.par hr) hrest

theorem toLower_digit (c : Char) (h : c.isDigit = true) : Char.toLower c = c := by
  simp only [Char.isDigit, Bool.and_eq_true, decide_eq_true_eq] at h
  have h1 : c.val.toNat ≤ 57 := by
    have h2 := h.2
    rw [UInt32.le_def, BitVec.le_def] at h2
    simpa using h2
  rw [Char.toLower, if_neg]
  intro hcon
  have h3 : Char.toNat c = c.val.toNat := rfl
  rw [h3] at hcon
  omega

theorem ndB_shape {s : Str} (h : ndB s = true) :
    ∃ c cs, s = c :: cs ∧ c.isDigit = true := by
  match s with
  | [] => cases h
  | c :: cs =>
    rw [show ndB (c :: cs) = (c.isDigit && ndGo cs) from rfl] at h
    simp only [Bool.and_eq_true] at h
    exact ⟨c, cs, rfl, h.1⟩

theorem optB_shape {s : Str} (h : optB s = true) : ∃ a r, s = a :: ')' :: r := by
  match s with
  | [] => cases h
  | [a] => cases h
  | a :: b :: r =>
    rw [show optB (a :: b :: r) =
        ((a == 'A' || a == 'B' || a == 'C' || a == 'D') && b == ')') from rfl] at h
    simp only [Bool.and_eq_true, beq_iff_eq] at h
    exact ⟨a, r, by rw [h.2]⟩

theorem S_heads : ∀ w ∈ answerBareSet,
    w.head? = some 'a' ∨ w.head? = some 'उ' ∨ w.head? = some 'ଉ' := by decide

theorem S_tailheads : ∀ w ∈ answerBareSet,
    w.tail.head? = some 'n' ∨ w.tail.head? = some 'त' ∨ w.tail.head? = some 'ତ' := by
  decide

theorem S_no_dot_par : ∀ w ∈ answerBareSet, '.' ∉ w ∧ ')' ∉ w := by decide

theorem fmaLine_rel (l : Str) : lineRel l (fmaLine l) := by
  unfold fmaLine
  by_cases hm : lowerStr (pyStrip l) ∈ answerBareSet
  · rw [if_pos hm]
    have htr : trigB l = false := by
      cases h2 : trigB l
      · rfl
      · obtain ⟨c, cs, hs⟩ := trigB_shape h2
        have hw : (lowerStr (pyStrip l)).head? = some ')' := by
          rw [hs]
          rw [show lowerStr (')' :: c :: cs) =
              Char.toLower ')' :: lowerStr (c :: cs) from rfl]
          rw [show Char.toLower ')' = ')' from by decide]
          rfl
        rcases S_heads _ hm with h3 | h3 | h3 <;> rw [hw] at h3 <;> simp at h3
    have hnd : ndB (pyStrip l) = false := by
      cases h2 : ndB (pyStrip l)
      · rfl
      · obtain ⟨c, cs, hs, hd⟩ := ndB_shape h2
        have hw : (lowerStr (pyStrip l)).head? = some c := by
          rw [hs]
          rw [show lowerStr (c :: cs) = Char.toLower c :: lowerStr cs from rfl]
          rw [toLower_digit c hd]
          rfl
        rcases S_heads _ hm with h3 | h3 | h3 <;> rw [hw] at h3 <;>
          (injection h3 with h4; rw [h4] at hd; exact absurd hd (by decide))
    have hop : optB (pyStrip l) = false := by
      cases h2 : optB (pyStrip l)
      · rfl
      · obtain ⟨a, r, hs⟩ := optB_shape h2
        have hw : (lowerStr (pyStrip l)).tail.head? = some ')' := by
          rw [hs]
          rw [show lowerStr (a :: ')' :: r) =
              Char.toLower a :: Char.toLower ')' :: lowerStr r from rfl]
          rw [show Char.toLower ')' = ')' from by decide]
          rfl
        rcases S_tailheads _ hm with h3 | h3 | h3 <;> rw [hw] at h3 <;> simp at h3
    refine ⟨?_, ?_, ?_⟩
    · rw [htr]
      symm
      decide
    · rw [hnd]
      symm
      decide
    · rw [hop]
      symm
      decide
  · rw [if_neg hm]
    exact lineRel_refl l

/-- No line of `ls` is a bare answer label (so `fix_missing_answers`
leaves all of them unchanged). -/
def fmaFixed (ls : List Str) : Prop :=
  ∀ l ∈ ls, lowerStr (pyStrip l) ∉ answerBareSet

theorem fma_estab (ls : List Str) : fmaFixed (ls.map fmaLine) := by
  intro l' hl'
  rw [List.mem_map] at hl'
  obtain ⟨l, -, rfl⟩ := hl'
  unfold fmaLine
  by_cases hm : lowerStr (pyStrip l) ∈ answerBareSet
  · rw [if_pos hm]
    decide
  · rw [if_neg hm]
    exact hm

theorem fma_fix : ∀ ls : List Str, fmaFixed ls → ls.map fmaLine = ls := by
  intro ls h
  induction ls with
  | nil => rfl
  | cons l lt ih =>
    have h1 : fmaLine l = l := by
      unfold fmaLine
      rw [if_neg (h l (List.mem_cons_self l lt))]
    rw [List.map_cons, h1, ih (fun x hx => h x (List.mem_cons_of_mem l hx))]

theorem mem_lstrip_of_nonws {c : Char} {l : Str} (hc : c.isWhitespace = false)
    (h : c ∈ l) : c ∈ lstrip l := by
  have hdec := (List.takeWhile_append_dropWhile Char.isWhitespace l).symm
  rw [hdec] at h
  rcases List.mem_append.mp h with h2 | h2
  · have := List.mem_takeWhile_imp h2
    rw [hc] at this
    cases this
  · exact h2

theorem mem_rstrip_of_nonws {c : Char} {l : Str} (hc : c.isWhitespace = false)
    (h : c ∈ l) : c ∈ rstrip l := by
  obtain ⟨hdec, hws⟩ := rstrip_decomp l
  rw [hdec] at h
  rcases List.mem_append.mp h with h2 | h2
  · exact h2
  · have := hws c h2
    rw [hc] at this
    cases this

theorem mem_pyStrip_of_nonws {c : Char} {l : Str} (hc : c.isWhitespace = false)
    (h : c ∈ l) : c ∈ pyStrip l :=
  mem_rstrip_of_nonws hc (mem_lstrip_of_nonws hc h)

theorem spins_S_transport {a b : Str} (h : SpIns a b)
    (hna : lowerStr (pyStrip a) ∉ answerBareSet) :
    lowerStr (pyStrip b) ∉ answerBareSet := by
  rcases spins_eq_or_mem h with heq | hmem | hmem
  · rw [← heq]
    exact hna
  · intro hin
    have h1 : '.' ∈ pyStrip b := mem_pyStrip_of_nonws (by decide) hmem
    have h2 : '.' ∈ lowerStr (pyStrip b) := by
      rw [lowerStr, List.mem_map]
      exact ⟨'.', h1, by decide⟩
    exact (S_no_dot_par _ hin).1 h2
  · intro hin
    have h1 : ')' ∈ pyStrip b := mem_pyStrip_of_nonws (by decide) hmem
    have h2 : ')' ∈ lowerStr (pyStrip b) := by
      rw [lowerStr, List.mem_map]
      exact ⟨')', h1, by decide⟩
    exact (S_no_dot_par _ hin).2 h2

theorem forall2_map_self {R : Str → Str → Prop} (f : Str → Str)
    (hf : ∀ l, R l (f l)) : ∀ ls : List Str, List.Forall₂ R ls (ls.map f) := by
  intro ls
  induction ls with
  | nil => exact List.Forall₂.nil
  | cons l lt ih => exact List.Forall₂.cons (hf l) ih

theorem forall2_mem_transfer {R : Str → Str → Prop} {P : Str → Prop}
    (hRP : ∀ a b, R a b → P a → P b) :
    ∀ {as bs : List Str}, List.Forall₂ R as bs →
      (∀ a ∈ as, P a) → ∀ b ∈ bs, P b := by
  intro as bs h
  induction h with
  | nil => intro _ b hb; cases hb
  | cons hr _ ih =>
    intro hall b hb
    rcases List.mem_cons.mp hb with h2 | h2
    · subst h2
      exact hRP _ _ hr (hall _ (List.mem_cons_self _ _))
    · exact ih (fun a ha => hall a (List.mem_cons_of_mem _ ha)) b h2

/-- The test `sub_number_space` applies at the head of a suffix. -/
def m1At : Str → Bool
  | [] => false
  | c :: cs =>
    c.isDigit && ((cs.dropWhile Char.isDigit).head? == some '.')
      && !headWs (cs.dropWhile Char.isDigit).tail

/-- Some suffix of `s` matches `(\d+)\.(?!\s)` at its head. -/
def hasM1 : Str → Bool
  | [] => false
  | c :: cs => m1At (c :: cs) || hasM1 cs

/-- The test `sub_option_space` applies at the head of a suffix. -/
def m2At : Str → Bool
  | [] => false
  | c :: cs =>
    (c == 'A' || c == 'B' || c == 'C' || c == 'D')
      && (cs.head? == some ')') && !headWs cs.tail

/-- Some suffix of `s` matches `([A-D])\)(?!\s)` at its head. -/
def hasM2 : Str → Bool
  | [] => false
  | c :: cs => m2At (c :: cs) || hasM2 cs

theorem w1_id_of_no_m1 : ∀ s : Str, hasM1 s = false → sub_number_space s = s := by
  intro s
  induction s with
  | nil => intro _; exact w1_nil
  | cons c cs ih =>
    intro h
    rw [show hasM1 (c :: cs) = (m1At (c :: cs) || hasM1 cs) from rfl,
        Bool.or_eq_false_iff] at h
    rw [w1_cons, if_neg]
    · rw [ih h.2]
    · rw [show (c.isDigit && ((cs.dropWhile Char.isDigit).head? == some '.')
          && !headWs (cs.dropWhile Char.isDigit).tail) = m1At (c :: cs) from rfl]
      rw [h.1]
      exact Bool.false_ne_true

theorem w2_id_of_no_m2 : ∀ s : Str, hasM2 s = false → sub_option_space s = s := by
  intro s
  induction s with
  | nil => intro _; exact w2_nil
  | cons c cs ih =>
    intro h
    rw [show hasM2 (c :: cs) = (m2At (c :: cs) || hasM2 cs) from rfl,
        Bool.or_eq_false_iff] at h
    rw [w2_cons, if_neg]
    · rw [ih h.2]
    · rw [show ((c == 'A' || c == 'B' || c == 'C' || c == 'D')
          && (cs.head? == some ')') && !headWs cs.tail) = m2At (c :: cs) from rfl]
      rw [h.1]
      exact Bool.false_ne_true

theorem spins_head : ∀ {a b : Str}, SpIns a b → a.head? = b.head? := by
  intro a b h
  cases h with
  | nil => rfl
  | cons c h2 => rfl
  | dot h2 => rfl
  | par h2 => rfl

theorem spins_nil_right : ∀ {a : Str}, SpIns a [] → a = [] := by
  intro a h
  cases h
  rfl

theorem spins_dropWhile_digit : ∀ {a b : Str}, SpIns a b →
    SpIns (a.dropWhile Char.isDigit) (b.dropWhile Char.isDigit) := by
  intro a b h
  induction h with
  | nil => exact SpIns.nil
  | cons c h2 ih =>
    by_cases hd : c.isDigit = true
    · rw [List.dropWhile_cons, if_pos hd, List.dropWhile_cons, if_pos hd]
      exact ih
    · rw [List.dropWhile_cons, if_neg hd, List.dropWhile_cons, if_neg hd]
      exact SpIns.cons c h2
  | dot h2 ih =>
    rw [List.dropWhile_cons, if_neg (by decide), List.dropWhile_cons,
        if_neg (by decide)]
    exact SpIns.dot h2
  | par h2 ih =>
    rw [List.dropWhile_cons, if_neg (by decide), List.dropWhile_cons,
        if_neg (by decide)]
    exact SpIns.par h2

theorem headWs_of_spins {t t' : Str} (h : SpIns t t')
    (hw : headWs t' = false) : headWs t = false := by
  cases t' with
  | nil =>
    rw [spins_nil_right h]
    rfl
  | cons x r' =>
    have hh := spins_head h
    rw [show (x :: r').head? = some x from rfl] at hh
    rw [head_eq_of_head? hh]
    exact hw

theorem m1At_spins {c : Char} {l l' : Str} (h2 : SpIns l l')
    (h3 : m1At (c :: l') = true) : m1At (c :: l) = true := by
  simp only [m1At, Bool.and_eq_true, beq_iff_eq, Bool.not_eq_true'] at h3 ⊢
  obtain ⟨⟨hd, hdot⟩, hws⟩ := h3
  have hD := spins_dropWhile_digit h2
  generalize hA : List.dropWhile Char.isDigit l = dl at hD ⊢
  generalize hB : List.dropWhile Char.isDigit l' = dl' at hD hdot hws
  cases hD with
  | nil => cases hdot
  | cons c0 h4 =>
    rename_i t t'
    rw [show (c0 :: t').head? = some c0 from rfl] at hdot
    injection hdot with h5
    subst h5
    simp only [List.tail_cons] at hws ⊢
    exact ⟨⟨hd, rfl⟩, headWs_of_spins h4 hws⟩
  | dot h4 =>
    rename_i t t'
    simp only [List.tail_cons] at hws
    rw [show headWs (' ' :: t') = true from rfl] at hws
    exact absurd hws (by decide)
  | par h4 =>
    rename_i t t'
    rw [show ((')' :: ' ' :: t' : Str)).head? = some ')' from rfl] at hdot
    injection hdot with h5
    exact absurd h5 (by decide)

theorem hasM1_spins : ∀ {a b : Str}, SpIns a b → hasM1 b = true → hasM1 a = true := by
  intro a b h
  induction h with
  | nil => intro h2; exact h2
  | cons c h2 ih =>
    rename_i l l'
    intro h3
    rw [show hasM1 (c :: l') = (m1At (c :: l') || hasM1 l') from rfl,
        Bool.or_eq_true] at h3
    rw [show hasM1 (c :: l) = (m1At (c :: l) || hasM1 l) from rfl,
        Bool.or_eq_true]
    rcases h3 with h3 | h3
    · exact Or.inl (m1At_spins h2 h3)
    · exact Or.inr (ih h3)
  | dot h2 ih =>
    rename_i l l'
    intro h3
    rw [show hasM1 ('.' :: ' ' :: l') = hasM1 l' from rfl] at h3
    rw [show hasM1 ('.' :: l) = hasM1 l from rfl]
    exact ih h3
  | par h2 ih =>
    rename_i l l'
    intro h3
    rw [show hasM1 (')' :: ' ' :: l') = hasM1 l' from rfl] at h3
    rw [show hasM1 (')' :: l) = hasM1 l from rfl]
    exact ih h3

theorem w1_cons_nondigit {c : Char} (h : c.isDigit = false) (cs : Str) :
    sub_number_space (c :: cs) = c :: sub_number_space cs := by
  rw [w1_cons, if_neg]
  rw [h]
  simp only [Bool.false_and]
  exact Bool.false_ne_true

theorem w2_cons_nonAD {c : Char}
    (h : (c == 'A' || c == 'B' || c == 'C' || c == 'D') = false) (cs : Str) :
    sub_option_space (c :: cs) = c :: sub_option_space cs := by
  rw [w2_cons, if_neg]
  rw [h]
  simp only [Bool.false_and]
  exact Bool.false_ne_true

theorem w2_head (cs : Str) : (sub_option_space cs).head? = cs.head? := by
  cases cs with
  | nil => rw [w2_nil]
  | cons c t =>
    rw [w2_cons]
    by_cases hc : ((c == 'A' || c == 'B' || c == 'C' || c == 'D')
        && (t.head? == some ')') && !headWs t.tail) = true
    · rw [if_pos hc]
      rfl
    · rw [if_neg hc]
      rfl

theorem dropWhile_digits_app {ds : Str} (hds : ∀ x ∈ ds, x.isDigit = true)
    (rest : Str) : List.dropWhile Char.isDigit (ds ++ rest) =
      List.dropWhile Char.isDigit rest := by
  induction ds with
  | nil => rfl
  | cons d dt ih =>
    rw [List.cons_append, List.dropWhile_cons,
        if_pos (hds d (List.mem_cons_self d dt))]
    exact ih (fun x hx => hds x (List.mem_cons_of_mem d hx))

theorem dropWhile_head_false {p : Char → Bool} : ∀ {l : Str} {c : Char} {cs : Str},
    List.dropWhile p l = c :: cs → p c = false := by
  intro l
  induction l with
  | nil => intro c cs h; cases h
  | cons a t ih =>
    intro c cs h
    rw [List.dropWhile_cons] at h
    split at h
    · exact ih h
    · rename_i hpa
      injection h with h1 h2
      subst h1
      simp only [Bool.not_eq_true] at hpa
      exact hpa

theorem w1_run (rest : Str) (hr : List.dropWhile Char.isDigit rest = rest)
    (hdot : rest.head? = some '.' → headWs rest.tail = true) :
    ∀ run : Str, (∀ x ∈ run, x.isDigit = true) →
      sub_number_space (run ++ rest) = run ++ sub_number_space rest := by
  intro run
  induction run with
  | nil => intro _; rfl
  | cons d ds ih =>
    intro hall
    have hds : ∀ x ∈ ds, x.isDigit = true :=
      fun x hx => hall x (List.mem_cons_of_mem d hx)
    have hdw : List.dropWhile Char.isDigit (ds ++ rest) = rest := by
      rw [dropWhile_digits_app hds, hr]
    rw [List.cons_append, w1_cons, if_neg]
    · rw [ih hds]
      rfl
    · intro hcond
      rw [hdw] at hcond
      simp only [Bool.and_eq_true, beq_iff_eq, Bool.not_eq_true'] at hcond
      obtain ⟨⟨-, h1⟩, h2⟩ := hcond
      rw [hdot h1] at h2
      exact absurd h2 (by decide)

theorem hasM1_run_dot_space (t : Str) : ∀ run : Str,
    (∀ x ∈ run, x.isDigit = true) →
    hasM1 (run ++ '.' :: ' ' :: t) = hasM1 t := by
  intro run
  induction run with
  | nil => intro _; rfl
  | cons d ds ih =>
    intro hall
    have hds : ∀ x ∈ ds, x.isDigit = true :=
      fun x hx => hall x (List.mem_cons_of_mem d hx)
    have hdw : List.dropWhile Char.isDigit (ds ++ '.' :: ' ' :: t) =
        '.' :: ' ' :: t := by
      rw [dropWhile_digits_app hds, List.dropWhile_cons, if_neg (by decide)]
    have hm : m1At (d :: (ds ++ '.' :: ' ' :: t)) = false := by
      rw [show m1At (d :: (ds ++ '.' :: ' ' :: t)) = (d.isDigit &&
          ((List.dropWhile Char.isDigit (ds ++ '.' :: ' ' :: t)).head? == some '.')
          && !headWs (List.dropWhile Char.isDigit (ds ++ '.' :: ' ' :: t)).tail)
          from rfl, hdw]
      simp only [List.tail_cons, show headWs (' ' :: t) = true from rfl,
        Bool.not_true, Bool.and_false]
    rw [List.cons_append,
        show hasM1 (d :: (ds ++ '.' :: ' ' :: t)) =
          (m1At (d :: (ds ++ '.' :: ' ' :: t)) || hasM1 (ds ++ '.' :: ' ' :: t))
          from rfl,
        hm, ih hds, Bool.false_or]

theorem m1At_w1_tail {c : Char} {cs : Str} (hc : m1At (c :: cs) = false) :
    m1At (c :: sub_number_space cs) = false := by
  by_cases hd : c.isDigit = true
  · cases hR : List.dropWhile Char.isDigit cs with
    | nil =>
      have hall : ∀ x ∈ cs, x.isDigit = true := by
        intro x hx
        exact List.dropWhile_eq_nil_iff.mp hR x hx
      have hw1 : sub_number_space cs = cs := by
        have h0 := w1_run [] rfl (fun h => absurd h (by decide)) cs hall
        rw [List.append_nil, w1_nil, List.append_nil] at h0
        exact h0
      rw [hw1]
      exact hc
    | cons r0 r' =>
      have hr0 : r0.isDigit = false := dropWhile_head_false hR
      have hsplit : cs.takeWhile Char.isDigit ++ r0 :: r' = cs := by
        rw [← hR]
        exact List.takeWhile_append_dropWhile Char.isDigit cs
      have hTall : ∀ x ∈ cs.takeWhile Char.isDigit, x.isDigit = true :=
        fun x hx => List.mem_takeWhile_imp hx
      by_cases hd0 : r0 = '.'
      · subst hd0
        have hw : headWs r' = true := by
          cases hwc : headWs r'
          · exfalso
            rw [show m1At (c :: cs) = (c.isDigit &&
                ((List.dropWhile Char.isDigit cs).head? == some '.')
                && !headWs (List.dropWhile Char.isDigit cs).tail) from rfl,
                hR, hd] at hc
            simp only [List.head?_cons, List.tail_cons, hwc] at hc
            exact absurd hc (by decide)
          · rfl
        cases r' with
        | nil => exact absurd hw (by decide)
        | cons w r'' =>
          have hwws : w.isWhitespace = true := hw
          have hw1 : sub_number_space cs =
              cs.takeWhile Char.isDigit ++ '.' :: w :: sub_number_space r'' := by
            conv_lhs => rw [← hsplit]
            have ha : List.dropWhile Char.isDigit ('.' :: w :: r'') =
                '.' :: w :: r'' := by
              rw [List.dropWhile_cons, if_neg (by decide)]
            have hb : ('.' :: w :: r'' : Str).head? = some '.' →
                headWs ('.' :: w :: r'' : Str).tail = true := fun _ => hwws
            rw [w1_run _ ha hb _ hTall, w1_cons_nondigit (by decide),
                w1_cons_nondigit (ws_not_digit w hwws)]
          rw [hw1]
          rw [show m1At (c :: (cs.takeWhile Char.isDigit ++ '.' :: w ::
              sub_number_space r'')) = (c.isDigit &&
              ((List.dropWhile Char.isDigit (cs.takeWhile Char.isDigit ++ '.' ::
                w :: sub_number_space r'')).head? == some '.')
              && !headWs (List.dropWhile Char.isDigit (cs.takeWhile Char.isDigit ++
                '.' :: w :: sub_number_space r'')).tail) from rfl,
              dropWhile_digits_app hTall, List.dropWhile_cons, if_neg (by decide)]
          simp only [List.tail_cons, show headWs (w :: sub_number_space r'') =
              w.isWhitespace from rfl, hwws, Bool.not_true, Bool.and_false]
      · have hw1 : sub_number_space cs =
            cs.takeWhile Char.isDigit ++ r0 :: sub_number_space r' := by
          conv_lhs => rw [← hsplit]
          have ha : List.dropWhile Char.isDigit (r0 :: r') = r0 :: r' := by
            rw [List.dropWhile_cons, if_neg]
            rw [hr0]
            exact Bool.false_ne_true
          have hb : (r0 :: r' : Str).head? = some '.' →
              headWs (r0 :: r' : Str).tail = true := by
            intro hh
            simp only [List.head?_cons, Option.some_inj] at hh
            exact absurd hh hd0
          rw [w1_run _ ha hb _ hTall, w1_cons_nondigit hr0]
        rw [hw1]
        have hbeq : ((some r0 : Option Char) == some '.') = false := by
          rw [beq_eq_false_iff_ne]
          intro hh
          exact hd0 (Option.some.inj hh)
        rw [show m1At (c :: (cs.takeWhile Char.isDigit ++ r0 ::
            sub_number_space r')) = (c.isDigit &&
            ((List.dropWhile Char.isDigit (cs.takeWhile Char.isDigit ++ r0 ::
              sub_number_space r')).head? == some '.')
            && !headWs (List.dropWhile Char.isDigit (cs.takeWhile Char.isDigit ++
              r0 :: sub_number_space r')).tail) from rfl,
            dropWhile_digits_app hTall, List.dropWhile_cons, if_neg,
            List.head?_cons, hbeq]
        · simp only [Bool.and_false, Bool.false_and]
        · rw [hr0]
          exact Bool.false_ne_true
  · rw [show m1At (c :: sub_number_space cs) = (c.isDigit &&
        ((List.dropWhile Char.isDigit (sub_number_space cs)).head? == some '.')
        && !headWs (List.dropWhile Char.isDigit (sub_number_space cs)).tail)
        from rfl]
    simp only [Bool.not_eq_true] at hd
    rw [hd]
    simp only [Bool.false_and]

theorem m2At_w2_tail {c : Char} {cs : Str} (hc : m2At (c :: cs) = false) :
    m2At (c :: sub_option_space cs) = false := by
  by_cases hAD : (c == 'A' || c == 'B' || c == 'C' || c == 'D') = true
  · cases hhd : cs.head? with
    | none =>
      have hnil : cs = [] := by
        cases cs
        · rfl
        · cases hhd
      subst hnil
      rw [w2_nil]
      exact hc
    | some r0 =>
      have hcs : cs = r0 :: cs.tail := head_eq_of_head? hhd
      by_cases hr0 : r0 = ')'
      · subst hr0
        have hw : headWs cs.tail = true := by
          cases hwc : headWs cs.tail
          · exfalso
            rw [show m2At (c :: cs) = ((c == 'A' || c == 'B' || c == 'C' ||
                c == 'D') && (cs.head? == some ')') && !headWs cs.tail) from rfl,
                hAD, hhd, hwc] at hc
            exact absurd hc (by decide)
          · rfl
        cases ht : cs.tail with
        | nil =>
          rw [ht] at hw
          exact absurd hw (by decide)
        | cons w r'' =>
          rw [ht] at hw hcs
          have hwws : w.isWhitespace = true := hw
          have hw2 : sub_option_space cs = ')' :: w :: sub_option_space r'' := by
            conv_lhs => rw [hcs]
            rw [w2_cons_nonAD (by decide), w2_cons_nonAD (ws_not_AD w hwws)]
          rw [hw2]
          rw [show m2At (c :: ')' :: w :: sub_option_space r'') =
              ((c == 'A' || c == 'B' || c == 'C' || c == 'D')
              && (((')' :: w :: sub_option_space r'' : Str)).head? == some ')')
              && !headWs ((')' :: w :: sub_option_space r'' : Str)).tail) from rfl]
          simp only [List.head?_cons, List.tail_cons,
            show headWs (w :: sub_option_space r'') = w.isWhitespace from rfl,
            hwws, Bool.not_true, Bool.and_false]
      · have hbeq : ((sub_option_space cs).head? == some ')') = false := by
          rw [w2_head, hhd, beq_eq_false_iff_ne]
          intro hh
          exact hr0 (Option.some.inj hh)
        rw [show m2At (c :: sub_option_space cs) =
            ((c == 'A' || c == 'B' || c == 'C' || c == 'D')
            && ((sub_option_space cs).head? == some ')')
            && !headWs (sub_option_space cs).tail) from rfl, hbeq]
        simp only [Bool.and_false, Bool.false_and]
  · simp only [Bool.not_eq_true] at hAD
    rw [show m2At (c :: sub_option_space cs) =
        ((c == 'A' || c == 'B' || c == 'C' || c == 'D')
        && ((sub_option_space cs).head? == some ')')
        && !headWs (sub_option_space cs).tail) from rfl, hAD]
    simp only [Bool.false_and]

theorem hasM1_w1_aux : ∀ n : Nat, ∀ s : Str, s.length ≤ n →
    hasM1 (sub_number_space s) = false := by
  intro n
  induction n with
  | zero =>
    intro s hs
    have hnil : s = [] := List.length_eq_zero.mp (Nat.le_zero.mp hs)
    subst hnil
    rw [w1_nil]
    rfl
  | succ n ih =>
    intro s hs
    cases s with
    | nil =>
      rw [w1_nil]
      rfl
    | cons c cs =>
      rw [w1_cons]
      by_cases hcond : (c.isDigit && ((cs.dropWhile Char.isDigit).head? == some '.')
          && !headWs (cs.dropWhile Char.isDigit).tail) = true
      · rw [if_pos hcond]
        simp only [Bool.and_eq_true, beq_iff_eq, Bool.not_eq_true'] at hcond
        obtain ⟨⟨hd, -⟩, -⟩ := hcond
        have hall : ∀ x ∈ c :: cs.takeWhile Char.isDigit, x.isDigit = true := by
          intro x hx
          rcases List.mem_cons.mp hx with h2 | h2
          · rw [h2]
            exact hd
          · exact List.mem_takeWhile_imp h2
        rw [hasM1_run_dot_space _ _ hall]
        apply ih
        have h1 : (cs.dropWhile Char.isDigit).length ≤ cs.length :=
          (List.dropWhile_sublist Char.isDigit).length_le
        rw [List.length_tail]
        simp only [List.length_cons] at hs
        omega
      · rw [if_neg hcond]
        have hm1 : m1At (c :: cs) = false := by
          simp only [Bool.not_eq_true] at hcond
          exact hcond
        have hm := m1At_w1_tail hm1
        have hrec : hasM1 (sub_number_space cs) = false := by
          apply ih
          simp only [List.length_cons] at hs
          omega
        rw [show hasM1 (c :: sub_number_space cs) =
            (m1At (c :: sub_number_space cs) || hasM1 (sub_number_space cs))
            from rfl, hm, hrec]
        rfl

theorem hasM1_w1 (s : Str) : hasM1 (sub_number_space s) = false :=
  hasM1_w1_aux s.length s (Nat.le_refl _)

theorem hasM2_w2_aux : ∀ n : Nat, ∀ s : Str, s.length ≤ n →
    hasM2 (sub_option_space s) = false := by
  intro n
  induction n with
  | zero =>
    intro s hs
    have hnil : s = [] := List.length_eq_zero.mp (Nat.le_zero.mp hs)
    subst hnil
    rw [w2_nil]
    rfl
  | succ n ih =>
    intro s hs
    cases s with
    | nil =>
      rw [w2_nil]
      rfl
    | cons c cs =>
      rw [w2_cons]
      by_cases hcond : ((c == 'A' || c == 'B' || c == 'C' || c == 'D')
          && (cs.head? == some ')') && !headWs cs.tail) = true
      · rw [if_pos hcond]
        have hm : m2At (c :: ')' :: ' ' :: sub_option_space cs.tail) = false := by
          rw [show m2At (c :: ')' :: ' ' :: sub_option_space cs.tail) =
              ((c == 'A' || c == 'B' || c == 'C' || c == 'D')
              && (((')' :: ' ' :: sub_option_space cs.tail : Str)).head? ==
                some ')')
              && !headWs ((')' :: ' ' :: sub_option_space cs.tail : Str)).tail)
              from rfl]
          simp only [List.tail_cons,
            show headWs (' ' :: sub_option_space cs.tail) = true from rfl,
            Bool.not_true, Bool.and_false]
        have hrec : hasM2 (sub_option_space cs.tail) = false := by
          apply ih
          rw [List.length_tail]
          simp only [List.length_cons] at hs
          omega
        rw [show hasM2 (c :: ')' :: ' ' :: sub_option_space cs.tail) =
            (m2At (c :: ')' :: ' ' :: sub_option_space cs.tail) ||
              hasM2 (sub_option_space cs.tail)) from rfl, hm, hrec]
        rfl
      · rw [if_neg hcond]
        have hm := m2At_w2_tail (show m2At (c :: cs) = false from by
          simp only [Bool.not_eq_true] at hcond
          exact hcond)
        have hrec : hasM2 (sub_option_space cs) = false := by
          apply ih
          simp only [List.length_cons] at hs
          omega
        rw [show hasM2 (c :: sub_option_space cs) =
            (m2At (c :: sub_option_space cs) || hasM2 (sub_option_space cs))
            from rfl, hm, hrec]
        rfl

theorem hasM2_w2 (s : Str) : hasM2 (sub_option_space s) = false :=
  hasM2_w2_aux s.length s (Nat.le_refl _)

theorem mem_splitCh_no_sep (sep : Char) : ∀ t : Str, ∀ l ∈ splitCh sep t, sep ∉ l := by
  intro t
  induction t with
  | nil =>
    intro l hl
    rw [show splitCh sep ([] : Str) = [[]] from rfl, List.mem_singleton] at hl
    subst hl
    exact List.not_mem_nil sep
  | cons c cs ih =>
    intro l hl
    by_cases hc : c = sep
    · subst hc
      rw [split_cons_sep] at hl
      rcases List.mem_cons.mp hl with h2 | h2
      · subst h2
        exact List.not_mem_nil c
      · exact ih l h2
    · cases hs : splitCh sep cs with
      | nil => exact absurd hs (splitCh_ne_nil sep cs)
      | cons h1 t1 =>
        rw [split_cons_ne hc hs] at hl
        rcases List.mem_cons.mp hl with h2 | h2
        · subst h2
          intro hmem
          rcases List.mem_cons.mp hmem with h3 | h3
          · exact hc h3.symm
          · exact ih h1 (by rw [hs]; exact List.mem_cons_self h1 t1) h3
        · exact ih l (by rw [hs]; exact List.mem_cons_of_mem h1 h2)

theorem fmomStep_no_nl {accRev : List Str} {l : Str} (h : '\n' ∉ l) :
    '\n' ∉ fmomStep accRev l := by
  unfold fmomStep
  split
  · rename_i c cs heq
    split
    · rename_i hlt
      intro hmem
      rcases List.mem_cons.mp hmem with h2 | h2
      · exact letter_ne_nl (countBack accRev) hlt h2.symm
      · apply h
        apply mem_pyStrip
        rw [heq]
        exact h2
    · exact h
  · exact h

theorem fmomProc_no_nl : ∀ (ls accRev : List Str), (∀ l ∈ ls, '\n' ∉ l) →
    ∀ l' ∈ fmomProc accRev ls, '\n' ∉ l' := by
  intro ls
  induction ls with
  | nil =>
    intro accRev _ l' hl'
    simp only [fmomProc] at hl'
    exact absurd hl' (List.not_mem_nil l')
  | cons l lt ih =>
    intro accRev hall l' hl'
    simp only [fmomProc] at hl'
    rcases List.mem_cons.mp hl' with h2 | h2
    · subst h2
      exact fmomStep_no_nl (hall l (List.mem_cons_self l lt))
    · exact ih _ (fun x hx => hall x (List.mem_cons_of_mem l hx)) l' h2

theorem fmaLine_no_nl {l : Str} (h : '\n' ∉ l) : '\n' ∉ fmaLine l := by
  unfold fmaLine
  split
  · decide
  · exact h

theorem fmomStep_ne_nil {accRev : List Str} {l : Str} (hl : l ≠ []) :
    fmomStep accRev l ≠ [] := by
  unfold fmomStep
  split
  · split
    · simp
    · exact hl
  · exact hl

theorem fmomProc_ne_nil {accRev ls : List Str} (h : ls ≠ []) :
    fmomProc accRev ls ≠ [] := by
  cases ls with
  | nil => exact absurd rfl h
  | cons l lt => simp [fmomProc]

theorem map_ne_nil {f : Str → Str} {L : List Str} (h : L ≠ []) : L.map f ≠ [] := by
  cases L with
  | nil => exact absurd rfl h
  | cons a r => simp

theorem joinCh_cons2_ne_nil (sep : Char) (a b : Str) (r : List Str) :
    joinCh sep (a :: b :: r) ≠ [] := by
  rw [show joinCh sep (a :: b :: r) = a ++ sep :: joinCh sep (b :: r) from rfl]
  simp

theorem fmom_ne_nil (t : Str) (ht : t ≠ []) : fix_missing_option_markers t ≠ [] := by
  unfold fix_missing_option_markers
  rw [if_neg ht]
  cases hL : splitCh '\n' t with
  | nil => exact absurd hL (splitCh_ne_nil '\n' t)
  | cons l0 rest =>
    cases rest with
    | nil =>
      have hjoin := joinCh_split '\n' t
      rw [hL] at hjoin
      have hl0 : l0 = t := hjoin
      simp only [fmomProc]
      rw [show joinCh '\n' [fmomStep [] l0] = fmomStep [] l0 from rfl]
      apply fmomStep_ne_nil
      rw [hl0]
      exact ht
    | cons l1 rest2 =>
      simp only [fmomProc]
      exact joinCh_cons2_ne_nil '\n' _ _ _

theorem co_structure (t : Str) (ht : t ≠ []) :
    fix_missing_answers (fix_missing_option_markers t) =
      joinCh '\n' ((fmomProc [] (splitCh '\n' t)).map fmaLine) := by
  have hL0ne : fmomProc [] (splitCh '\n' t) ≠ [] :=
    fmomProc_ne_nil (splitCh_ne_nil '\n' t)
  have hL0nl : ∀ l ∈ fmomProc [] (splitCh '\n' t), '\n' ∉ l :=
    fmomProc_no_nl _ _ (mem_splitCh_no_sep '\n' t)
  have hX : fix_missing_option_markers t =
      joinCh '\n' (fmomProc [] (splitCh '\n' t)) := by
    unfold fix_missing_option_markers
    rw [if_neg ht]
  unfold fix_missing_answers
  rw [if_neg (fmom_ne_nil t ht), hX, splitCh_joinCh '\n' _ hL0ne hL0nl]

/-- C1: the repair stage is idempotent: for every input `t` and every
strict-correction language, applying `correct_output` (the chain of
`fix_missing_option_markers`, `fix_missing_answers` and the two
whitespace-normalization substitutions) twice returns the same string as
applying it once. -/
theorem correct_output_idem (t lang : Str) (hlang : lang ∈ STRICT_LANGUAGES) :
    correct_output (correct_output t lang) lang = correct_output t lang := by
  by_cases ht : t = []
  · subst ht
    have h0 : correct_output ([] : Str) lang = [] := by
      unfold correct_output
      rw [if_pos rfl]
    rw [h0, h0]
  · have hco : correct_output t lang =
        sub_option_space (sub_number_space (joinCh '\n'
          ((fmomProc [] (splitCh '\n' t)).map fmaLine))) := by
      unfold correct_output
      rw [if_neg ht, co_structure t ht]
    have hL0ne : fmomProc [] (splitCh '\n' t) ≠ [] :=
      fmomProc_ne_nil (splitCh_ne_nil '\n' t)
    have hL0nl : ∀ l ∈ fmomProc [] (splitCh '\n' t), '\n' ∉ l :=
      fmomProc_no_nl _ _ (mem_splitCh_no_sep '\n' t)
    have hL1ne : (fmomProc [] (splitCh '\n' t)).map fmaLine ≠ [] :=
      map_ne_nil hL0ne
    have hL1nl : ∀ l ∈ (fmomProc [] (splitCh '\n' t)).map fmaLine, '\n' ∉ l := by
      intro l hl
      rw [List.mem_map] at hl
      obtain ⟨x, hx, rfl⟩ := hl
      exact fmaLine_no_nl (hL0nl x hx)
    have hsplit1 : splitCh '\n' (joinCh '\n'
        ((fmomProc [] (splitCh '\n' t)).map fmaLine)) =
        (fmomProc [] (splitCh '\n' t)).map fmaLine :=
      splitCh_joinCh '\n' _ hL1ne hL1nl
    have hfix1 : fixedFrom [] ((fmomProc [] (splitCh '\n' t)).map fmaLine) :=
      fixedFrom_congr (forall2_map_self fmaLine fmaLine_rel _)
        List.Forall₂.nil (proc_fixedFrom (splitCh '\n' t) [])
    have hS1 : ∀ l ∈ (fmomProc [] (splitCh '\n' t)).map fmaLine,
        lowerStr (pyStrip l) ∉ answerBareSet := fma_estab _
    have hd1 : List.Forall₂ SpIns ((fmomProc [] (splitCh '\n' t)).map fmaLine)
        (splitCh '\n' (sub_number_space (joinCh '\n'
          ((fmomProc [] (splitCh '\n' t)).map fmaLine)))) := by
      have h0 := spins_split (spins_w1 (joinCh '\n'
        ((fmomProc [] (splitCh '\n' t)).map fmaLine)))
      rw [hsplit1] at h0
      exact h0
    have hd2 : List.Forall₂ SpIns
        (splitCh '\n' (sub_number_space (joinCh '\n'
          ((fmomProc [] (splitCh '\n' t)).map fmaLine))))
        (splitCh '\n' (sub_option_space (sub_number_space (joinCh '\n'
          ((fmomProc [] (splitCh '\n' t)).map fmaLine))))) :=
      spins_split (spins_w2 _)
    have hfix2 : fixedFrom [] (splitCh '\n' (sub_option_space (sub_number_space
        (joinCh '\n' ((fmomProc [] (splitCh '\n' t)).map fmaLine))))) :=
      fixedFrom_congr (List.Forall₂.imp (fun a b hab => rel_of_spins hab) hd2)
        List.Forall₂.nil
        (fixedFrom_congr (List.Forall₂.imp (fun a b hab => rel_of_spins hab) hd1)
          List.Forall₂.nil hfix1)
    have hS2 : ∀ l ∈ splitCh '\n' (sub_option_space (sub_number_space
        (joinCh '\n' ((fmomProc [] (splitCh '\n' t)).map fmaLine)))),
        lowerStr (pyStrip l) ∉ answerBareSet :=
      forall2_mem_transfer (fun a b hab => spins_S_transport hab) hd2
        (forall2_mem_transfer (fun a b hab => spins_S_transport hab) hd1 hS1)
    rw [hco]
    by_cases hout : sub_option_space (sub_number_space (joinCh '\n'
        ((fmomProc [] (splitCh '\n' t)).map fmaLine))) = []
    · unfold correct_output
      rw [if_pos hout]
      exact hout.symm
    · have hw1out : sub_number_space (sub_option_space (sub_number_space
          (joinCh '\n' ((fmomProc [] (splitCh '\n' t)).map fmaLine)))) =
          sub_option_space (sub_number_space (joinCh '\n'
            ((fmomProc [] (splitCh '\n' t)).map fmaLine))) := by
        apply w1_id_of_no_m1
        cases hh : hasM1 (sub_option_space (sub_number_space (joinCh '\n'
            ((fmomProc [] (splitCh '\n' t)).map fmaLine))))
        · rfl
        · exfalso
          have h2 := hasM1_spins (spins_w2 (sub_number_space (joinCh '\n'
            ((fmomProc [] (splitCh '\n' t)).map fmaLine)))) hh
          rw [hasM1_w1] at h2
          exact absurd h2 (by decide)
      have hw2out : sub_option_space (sub_option_space (sub_number_space
          (joinCh '\n' ((fmomProc [] (splitCh '\n' t)).map fmaLine)))) =
          sub_option_space (sub_number_space (joinCh '\n'
            ((fmomProc [] (splitCh '\n' t)).map fmaLine))) :=
        w2_id_of_no_m2 _ (hasM2_w2 _)
      have hfmomout : fix_missing_option_markers (sub_option_space
          (sub_number_space (joinCh '\n'
            ((fmomProc [] (splitCh '\n' t)).map fmaLine)))) =
          sub_option_space (sub_number_space (joinCh '\n'
            ((fmomProc [] (splitCh '\n' t)).map fmaLine))) := by
        unfold fix_missing_option_markers
        rw [if_neg hout, fixedFrom_proc_eq _ _ hfix2, joinCh_split]
      have hfmaout : fix_missing_answers (sub_option_space (sub_number_space
          (joinCh '\n' ((fmomProc [] (splitCh '\n' t)).map fmaLine)))) =
          sub_option_space (sub_number_space (joinCh '\n'
            ((fmomProc [] (splitCh '\n' t)).map fmaLine))) := by
        unfold fix_missing_answers
        rw [if_neg hout, fma_fix _ hS2, joinCh_split]
      unfold correct_output
      rw [if_neg hout, hfmomout, hfmaout, hw1out, hw2out]

theorem correct_output_idem_witness :
    "hindi".toList ∈ STRICT_LANGUAGES ∧
    correct_output (correct_output "1. Q?\n) opt\nAnswer:".toList "hindi".toList)
      "hindi".toList =
      correct_output "1. Q?\n) opt\nAnswer:".toList "hindi".toList :=
  ⟨by decide, correct_output_idem _ _ (by decide)⟩
